import Mathlib

/-
Verification development for the framework-assistant repository.

The Python sources are shallowly embedded below: strings become `List Char`,
dictionaries of framework fields become the `Framework` structure, and the
external collaborators (OpenAI client, embedding engine, handlers that are
not part of the analysed sources) are abstracted as function parameters.
Floating-point search scores are modelled by exact fractions; every property
proved here is independent of the ordering produced by the score comparison.
-/

set_option maxRecDepth 8000

abbrev Chars := List Char

/-- Python's `\s` (whitespace) class, restricted to the ASCII range that the
catalog data uses: space, tab, newline, carriage return, vertical tab, form feed. -/
def py_isSpace (c : Char) : Bool :=
  c == ' ' || c == '\t' || c == '\n' || c == '\r' || c == '\x0b' || c == '\x0c'

/-- Python `str.lower()` (ASCII). -/
def pyLower (s : Chars) : Chars := s.map Char.toLower

/-- Python `str.upper()` (ASCII). -/
def pyUpper (s : Chars) : Chars := s.map Char.toUpper

/-- Python `str.strip()`: drop whitespace from both ends. -/
def pyStrip (s : Chars) : Chars :=
  ((s.dropWhile py_isSpace).reverse.dropWhile py_isSpace).reverse

/-- Word counting as in Python `len(s.split())`: number of maximal
non-whitespace runs.  The Boolean argument records whether the previous
character was whitespace (true at the start). -/
def word_count : List Char → Bool → Nat
  | [], _ => 0
  | c :: cs, prevSpace =>
    if py_isSpace c then word_count cs true
    else (if prevSpace then 1 else 0) + word_count cs false

def pyWordCount (s : Chars) : Nat := word_count s true

/-- Position of the first occurrence of `qs` in `s` (Python `str.find`,
only used on strings where the substring is known to occur). -/
def findSubstrPos (qs : Chars) : Chars → Nat
  | [] => 0
  | s@(_ :: rest) => if qs.isPrefixOf s then 0 else findSubstrPos qs rest + 1

/-- Python's substring containment `needle in hay`. -/
def is_substring (needle : Chars) : Chars → Bool
  | [] => needle.isEmpty
  | s@(_ :: rest) => needle.isPrefixOf s || is_substring needle rest

/-- Lexicographic comparison of strings by code point (Python `<=` on str). -/
def lexLe : Chars → Chars → Bool
  | [], _ => true
  | _ :: _, [] => false
  | a :: as, b :: bs => if a = b then lexLe as bs else decide (a < b)

/-- `_clean_framework_name` from `components/framework_index.py` (duplicated in
`handlers/library.py`): `re.sub(r'\s+\d+$', '', name)`.  The regex removes the
maximal trailing block consisting of one whitespace run followed by one digit
run; if the string does not end in such a block it is returned unchanged. -/
def clean_framework_name (name : Chars) : Chars :=
  let rev := name.reverse
  let ds := rev.takeWhile Char.isDigit
  if ds.isEmpty then name
  else
    let rest := rev.dropWhile Char.isDigit
    let ws := rest.takeWhile py_isSpace
    if ws.isEmpty then name
    else (rest.dropWhile py_isSpace).reverse

/-- Whether a name still ends in a whitespace-plus-digits block, i.e. whether
the regex `\s+\d+$` of `_clean_framework_name` would match it. -/
def has_trailing_num_token (s : Chars) : Bool :=
  let rev := s.reverse
  !(rev.takeWhile Char.isDigit).isEmpty &&
    !((rev.dropWhile Char.isDigit).takeWhile py_isSpace).isEmpty

lemma clean_eq_self_of_no_token (s : Chars)
    (h : has_trailing_num_token s = false) : clean_framework_name s = s := by
  unfold has_trailing_num_token at h
  unfold clean_framework_name
  by_cases h1 : (s.reverse.takeWhile Char.isDigit).isEmpty
  · simp [h1]
  · simp only [h1, Bool.not_true, Bool.false_and, Bool.and_eq_false_iff,
      Bool.not_eq_false'] at h ⊢
    rcases h with h | h
    · simp_all
    · simp [h]

/-- C1.  The claim states that cleaning is idempotent for every name.  That
fails (see `clean_name_not_idempotent_cex`): the regex strips only the last
whitespace-plus-digits token, so a name ending in two stacked tokens loses one
per application.  Amended claim: cleaning is idempotent for every name whose
cleaned form does not itself end in a whitespace-plus-digits token. -/
theorem clean_name_idempotent_of_no_trailing_token (name : Chars)
    (h : has_trailing_num_token (clean_framework_name name) = false) :
    clean_framework_name (clean_framework_name name) = clean_framework_name name :=
  clean_eq_self_of_no_token _ h

theorem clean_name_idempotent_witness :
    has_trailing_num_token (clean_framework_name ("Attribution Framework 4").data) = false ∧
      clean_framework_name (clean_framework_name ("Attribution Framework 4").data) =
        clean_framework_name ("Attribution Framework 4").data :=
  ⟨by decide, clean_name_idempotent_of_no_trailing_token _ (by decide)⟩

/-- C1 counterexample: cleaning the name `"A 1 2"` once gives `"A 1"`, cleaning
twice gives `"A"`, so `canonicalize (canonicalize name) = canonicalize name`
does not hold for all names. -/
theorem clean_name_not_idempotent_cex :
    clean_framework_name (clean_framework_name ("A 1 2").data) ≠
      clean_framework_name ("A 1 2").data := by
  decide

/-- A catalog record.  The analysed code reads exactly these fields (via
`dict.get` with a default; in the catalog data model of the spec every field is
present, so the structure carries them directly). -/
structure Framework where
  id : Nat
  name : Chars
  type : Chars
  business_domains : Chars
  use_case : Chars
deriving DecidableEq

/-- Python's `re.match(r'^Framework$', s)`: `$` also matches just before one
trailing newline. -/
def re_match_framework_exact (s : Chars) : Bool :=
  s == "Framework".data || s == ("Framework".data ++ ['\n'])

/-- Python's `re.match(r'^Framework \d+$', s)`. -/
def re_match_framework_numbered (s : Chars) : Bool :=
  let pre := "Framework ".data
  if pre.isPrefixOf s then
    let rest := s.drop pre.length
    let core := if rest.getLast? == some '\n' then rest.dropLast else rest
    !core.isEmpty && core.all Char.isDigit
  else false

/-- `format_framework_display_name` from `app.py` (lines 399-443): strip the
trailing number token; if the remainder is the bare word `Framework` (or the
original name matches `Framework <digits>`), synthesize a label from
`use_case` (first clause before a period or comma, truncated to 60 chars,
suffixed with an ellipsis), else the first `business_domains` tag, else the
`type` plus the id, else just the id. -/
def format_framework_display_name (fw : Framework) : Chars :=
  let cleaned_name := clean_framework_name fw.name
  if re_match_framework_exact cleaned_name || re_match_framework_numbered fw.name then
    if !fw.use_case.isEmpty && 15 < fw.use_case.length then
      let first_phrase := ((fw.use_case.takeWhile (· ≠ '.')).takeWhile (· ≠ ',')).take 60
      if !first_phrase.isEmpty then first_phrase ++ "...".data
      else cleaned_name
    else if !fw.business_domains.isEmpty then
      let first_domain := pyStrip (fw.business_domains.takeWhile (· ≠ ','))
      first_domain ++ " Framework".data
    else if !fw.type.isEmpty then
      fw.type ++ " Framework #".data ++ (Nat.repr fw.id).data
    else "Framework #".data ++ (Nat.repr fw.id).data
  else cleaned_name

/-- `_format_framework_display_name` from `utils/llm.py` (lines 356-395): the
same logic as the copy in `app.py`, except that the first clause of
`use_case` is truncated to 50 characters instead of 60. -/
def llm_format_framework_display_name (fw : Framework) : Chars :=
  let cleaned_name := clean_framework_name fw.name
  if re_match_framework_exact cleaned_name || re_match_framework_numbered fw.name then
    if !fw.use_case.isEmpty && 15 < fw.use_case.length then
      let first_phrase := ((fw.use_case.takeWhile (· ≠ '.')).takeWhile (· ≠ ',')).take 50
      if !first_phrase.isEmpty then first_phrase ++ "...".data
      else cleaned_name
    else if !fw.business_domains.isEmpty then
      let first_domain := pyStrip (fw.business_domains.takeWhile (· ≠ ','))
      first_domain ++ " Framework".data
    else if !fw.type.isEmpty then
      fw.type ++ " Framework #".data ++ (Nat.repr fw.id).data
    else "Framework #".data ++ (Nat.repr fw.id).data
  else cleaned_name

/-- C3.  The claim asserts that the copies of the display-name function in
`app.py` and `utils/llm.py` compute identical results on every input.  They do
not (see `display_name_copies_differ_cex`): `app.py` truncates the first
`use_case` clause at 60 characters, `utils/llm.py` at 50.  Amended claim: both
copies synthesize the name for generic records in the priority order
use_case clause, first domain tag, type + id, id, and they agree on every
framework whose `use_case` first clause (text before the first period or
comma) is at most 50 characters long. -/
theorem display_name_copies_agree_upto_50 (fw : Framework)
    (h : ((fw.use_case.takeWhile (· ≠ '.')).takeWhile (· ≠ ',')).length ≤ 50) :
    format_framework_display_name fw = llm_format_framework_display_name fw := by
  unfold format_framework_display_name llm_format_framework_display_name
  have htake : ((fw.use_case.takeWhile (· ≠ '.')).takeWhile (· ≠ ',')).take 60 =
      ((fw.use_case.takeWhile (· ≠ '.')).takeWhile (· ≠ ',')).take 50 := by
    rw [List.take_of_length_le h, List.take_of_length_le (le_trans h (by norm_num))]
  simp only [htake]

theorem display_name_copies_agree_witness :
    (((("Framework 3").data).takeWhile (· ≠ '.')).takeWhile (· ≠ ',')).length ≤ 50 ∧
      format_framework_display_name
          ⟨7, ("Framework 3").data, [], [], ("Improve sales pipeline conversion").data⟩ =
        llm_format_framework_display_name
          ⟨7, ("Framework 3").data, [], [], ("Improve sales pipeline conversion").data⟩ :=
  ⟨by decide, display_name_copies_agree_upto_50 _ (by decide)⟩

/-- C3 counterexample: a generic record whose `use_case` is sixty letters with
no period or comma.  The `app.py` copy keeps 60 characters before the
ellipsis, the `utils/llm.py` copy keeps 50, so the two copies differ. -/
theorem display_name_copies_differ_cex :
    format_framework_display_name
        ⟨7, ("Framework 3").data, [], [],
          ("aaaaaaaaaaaaaaaaaaaaaaaaaaaaaaaaaaaaaaaaaaaaaaaaaaaaaaaaaaaa").data⟩ ≠
      llm_format_framework_display_name
        ⟨7, ("Framework 3").data, [], [],
          ("aaaaaaaaaaaaaaaaaaaaaaaaaaaaaaaaaaaaaaaaaaaaaaaaaaaaaaaaaaaa").data⟩ := by
  decide

inductive Role where
  | user
  | assistant
deriving DecidableEq, BEq

/-- One entry of the conversation history (`session.get_conversation_history()`). -/
structure Turn where
  role : Role
  content : Chars
deriving DecidableEq

/-- `followup_indicators` from `enhance_query_with_context` in `app.py`. -/
def followup_indicators : List Chars :=
  ["what else", "anything else", "other options", "alternatives",
   "what about", "show me more", "other frameworks", "more options",
   "nah", "no", "not that one", "different one", "different",
   "are there", "do you have other", "something else"].map String.data

/-- `specific_intent_keywords` from `enhance_query_with_context` in `app.py`. -/
def specific_intent_keywords : List Chars :=
  ["tell me about", "explain", "what is", "describe", "details",
   "how does", "how do", "how to", "compare", "vs", "versus",
   "before", "after", "sequence", "prerequisite"].map String.data

/-- The trigger condition of `enhance_query_with_context`:
`is_followup or (is_short and len(query) < 30 and not is_specific_request)`. -/
def enhance_trigger (query : Chars) : Bool :=
  let ql := pyStrip (pyLower query)
  let is_followup := followup_indicators.any (fun ind => is_substring ind ql)
  let is_specific_request := specific_intent_keywords.any (fun k => is_substring k ql)
  let is_short := pyWordCount query < 6
  is_followup || (is_short && query.length < 30 && !is_specific_request)

/-- The per-turn test of the backward scan in `enhance_query_with_context`:
a user turn longer than 30 characters whose lowered and stripped text differs
from the lowered and stripped query. -/
def qualifies_as_context (query : Chars) (t : Turn) : Bool :=
  t.role == Role.user && decide (30 < t.content.length) &&
    decide (pyStrip (pyLower t.content) ≠ pyStrip (pyLower query))

/-- The backward scan: `for msg in reversed(history)` — the argument list is
the reversed history, searched front to back. -/
def find_context_turn (query : Chars) : List Turn → Option Chars
  | [] => none
  | t :: rest =>
    if qualifies_as_context query t then some t.content
    else find_context_turn query rest

/-- The splice `f"{msg['content']} (user wants alternatives: {query})"`. -/
def alternatives_marker (query : Chars) : Chars :=
  " (user wants alternatives: ".data ++ query ++ ")".data

/-- `enhance_query_with_context` from `app.py` (lines 349-396). -/
def enhance_query_with_context (query : Chars) (history : List Turn) : Chars :=
  if enhance_trigger query then
    match find_context_turn query history.reverse with
    | some content => content ++ alternatives_marker query
    | none => query
  else query

lemma find_context_turn_eq_none (query : Chars) (l : List Turn)
    (h : ∀ t ∈ l, qualifies_as_context query t = false) :
    find_context_turn query l = none := by
  induction l with
  | nil => rfl
  | cons t rest ih =>
    have ht := h t (by simp)
    simp [find_context_turn, ht]
    exact ih fun t' ht' => h t' (by simp [ht'])

lemma find_context_turn_append (query : Chars) (l₁ l₂ : List Turn)
    (h : ∀ t ∈ l₁, qualifies_as_context query t = false) :
    find_context_turn query (l₁ ++ l₂) = find_context_turn query l₂ := by
  induction l₁ with
  | nil => rfl
  | cons t rest ih =>
    have ht := h t (by simp)
    simp [find_context_turn, ht]
    exact ih fun t' ht' => h t' (by simp [ht'])

/-- C4.  The claim describes the enhancer exactly, except that it reads
"the most recent user turn longer than 30 characters that differs from the
query": the code skips turns that agree with the query after lowercasing and
whitespace-stripping, even when they differ from it as raw strings (see
`enhance_query_case_sensitivity_cex`).  Amended claim: when the trigger
condition holds (a continuation phrase occurs in the lowered query, or the
query has fewer than 6 words, fewer than 30 characters and no specific-intent
marker), the enhancer returns the most recent user turn longer than 30
characters that differs from the query after lowercasing and stripping,
followed verbatim by the alternatives marker containing the current query; in
every other case, and when no qualifying turn exists, the query is returned
unchanged. -/
theorem enhance_query_context_spec (query : Chars) (history : List Turn) :
    (enhance_trigger query = false → enhance_query_with_context query history = query) ∧
    (enhance_trigger query = true →
      ((∀ t ∈ history, qualifies_as_context query t = false) →
          enhance_query_with_context query history = query) ∧
      (∀ h₁ t h₂, history = h₁ ++ t :: h₂ →
          qualifies_as_context query t = true →
          (∀ t' ∈ h₂, qualifies_as_context query t' = false) →
          enhance_query_with_context query history =
            t.content ++ alternatives_marker query)) := by
  constructor
  · intro h
    simp [enhance_query_with_context, h]
  · intro htrig
    constructor
    · intro hall
      have : find_context_turn query history.reverse = none := by
        apply find_context_turn_eq_none
        intro t ht
        exact hall t (List.mem_reverse.mp ht)
      simp [enhance_query_with_context, htrig, this]
    · intro h₁ t h₂ hsplit hqual hafter
      have hrev : history.reverse = h₂.reverse ++ t :: h₁.reverse := by
        simp [hsplit, List.reverse_append]
      have : find_context_turn query history.reverse = some t.content := by
        rw [hrev, find_context_turn_append query _ _
          (fun t' ht' => hafter t' (List.mem_reverse.mp ht'))]
        simp [find_context_turn, hqual]
      simp [enhance_query_with_context, htrig, this]

theorem enhance_query_context_witness :
    enhance_trigger ("what else").data = true ∧
      qualifies_as_context ("what else").data
        ⟨Role.user, ("Client has high employee turnover and low morale").data⟩ = true ∧
      enhance_query_with_context ("what else").data
          [⟨Role.user, ("Client has high employee turnover and low morale").data⟩] =
        ("Client has high employee turnover and low morale").data ++
          alternatives_marker ("what else").data :=
  ⟨by decide, by decide,
    ((enhance_query_context_spec ("what else").data
          [⟨Role.user, ("Client has high employee turnover and low morale").data⟩]).2
        (by decide)).2 []
      ⟨Role.user, ("Client has high employee turnover and low morale").data⟩ []
      rfl (by decide) (by intro t' ht'; cases ht')⟩

/-- C4 counterexample: the query contains the continuation phrase in upper
case, and the prior user turn is its lowercase variant (46 characters, a
different string from the query).  Per the claim the result should contain
that turn verbatim plus the marker; the code, comparing after lowercasing and
stripping, skips the turn and returns the query unchanged. -/
theorem enhance_query_case_sensitivity_cex :
    enhance_trigger ("WHAT ELSE AAAAAAAAAAAAAAAAAAAAAAAAAAAAAAAAAAAA").data = true ∧
      ("what else aaaaaaaaaaaaaaaaaaaaaaaaaaaaaaaaaaaa").data ≠
        ("WHAT ELSE AAAAAAAAAAAAAAAAAAAAAAAAAAAAAAAAAAAA").data ∧
      30 < ("what else aaaaaaaaaaaaaaaaaaaaaaaaaaaaaaaaaaaa").data.length ∧
      enhance_query_with_context ("WHAT ELSE AAAAAAAAAAAAAAAAAAAAAAAAAAAAAAAAAAAA").data
          [⟨Role.user, ("what else aaaaaaaaaaaaaaaaaaaaaaaaaaaaaaaaaaaa").data⟩] =
        ("WHAT ELSE AAAAAAAAAAAAAAAAAAAAAAAAAAAAAAAAAAAA").data := by
  refine ⟨by decide, by decide, by decide, ?_⟩
  decide

/-- The retry loop shared by `LLMClient.generate_response` and
`LLMClient.embed_text` in `utils/llm.py`: `for attempt in range(max_retries)`
tries the provider call, returns immediately on success, records the
exception on failure, sleeps `1.0 * 2**attempt` time-units unless this was
the final attempt, and finally re-raises the last exception.  The provider
call is abstracted as a function from the attempt index to a result; the
output records the result (`Except.error none` models `raise None`, which is
unreachable for positive `max_retries`), the list of sleep delays performed,
and the number of provider calls made. -/
def attempts_loop {ε α : Type} (call : Nat → Except ε α) :
    Nat → Nat → Option ε → Except (Option ε) α × List Nat × Nat
  | _, 0, last => (Except.error last, [], 0)
  | attempt, r + 1, _ =>
    match call attempt with
    | Except.ok a => (Except.ok a, [], 1)
    | Except.error e =>
      let rest := attempts_loop call (attempt + 1) r (some e)
      (rest.1, (if 0 < r then [2 ^ attempt] else []) ++ rest.2.1, rest.2.2 + 1)

/-- `LLMClient.generate_response` (lines 126-182 of `utils/llm.py`), with the
chat-completion call abstracted; `max_retries` defaults to 3 at the source. -/
def generate_response {ε α : Type} (call : Nat → Except ε α) (max_retries : Nat) :
    Except (Option ε) α × List Nat × Nat :=
  attempts_loop call 0 max_retries none

/-- `LLMClient.embed_text` (lines 282-316 of `utils/llm.py`), with the
embeddings call abstracted; `max_retries` defaults to 3 at the source. -/
def embed_text {ε α : Type} (call : Nat → Except ε α) (max_retries : Nat) :
    Except (Option ε) α × List Nat × Nat :=
  attempts_loop call 0 max_retries none

/-- C7.  With the default `max_retries = 3`, both `generate_response` and
`embed_text` make at most 3 provider calls with sleeps of exactly 1 and 2
time-units between consecutive attempts; a success on any attempt is returned
at once with no further calls and no further sleeps, and if all three
attempts fail the exception of the last attempt is the one propagated. -/
theorem retry_backoff_spec {ε α β : Type} (callG : Nat → Except ε α)
    (callE : Nat → Except ε β) (a : α) (b : β) (e0 e1 e2 : ε) :
    (callG 0 = Except.ok a → generate_response callG 3 = (Except.ok a, [], 1)) ∧
    (callG 0 = Except.error e0 → callG 1 = Except.ok a →
      generate_response callG 3 = (Except.ok a, [1], 2)) ∧
    (callG 0 = Except.error e0 → callG 1 = Except.error e1 → callG 2 = Except.ok a →
      generate_response callG 3 = (Except.ok a, [1, 2], 3)) ∧
    (callG 0 = Except.error e0 → callG 1 = Except.error e1 → callG 2 = Except.error e2 →
      generate_response callG 3 = (Except.error (some e2), [1, 2], 3)) ∧
    (callE 0 = Except.ok b → embed_text callE 3 = (Except.ok b, [], 1)) ∧
    (callE 0 = Except.error e0 → callE 1 = Except.error e1 → callE 2 = Except.error e2 →
      embed_text callE 3 = (Except.error (some e2), [1, 2], 3)) := by
  refine ⟨?_, ?_, ?_, ?_, ?_, ?_⟩ <;> intros <;>
    simp [generate_response, embed_text, attempts_loop, *]

theorem retry_backoff_witness :
    generate_response (fun i => if i < 2 then Except.error i else Except.ok 42) 3 =
        (Except.ok 42, [1, 2], 3) ∧
      embed_text (fun _ => (Except.error 7 : Except Nat Nat)) 3 =
        (Except.error (some 7), [1, 2], 3) :=
  ⟨((((retry_backoff_spec (fun i => if i < 2 then Except.error i else Except.ok 42)
          (fun _ => (Except.error 7 : Except Nat Nat)) 42 0 0 1 7).2).2).1)
      rfl rfl rfl,
    (retry_backoff_spec (fun i => if i < 2 then Except.error i else Except.ok 42)
          (fun _ => (Except.error 7 : Except Nat Nat)) 42 0 7 7 7).2.2.2.2.2
      rfl rfl rfl⟩

/-- A search result (`SemanticSearch` result objects used by `app.py`). -/
structure SearchRes where
  framework_id : Nat
  framework_data : Framework
  similarity_score : ℚ
deriving DecidableEq

/-- The conversation stages compared against in `process_query`. -/
inductive Stage where
  | idle
  | framework_selection
  | diagnostic_active
deriving DecidableEq, BEq

/-- The closed intent set of `utils/intent.py`. -/
inductive Intent where
  | diagnostic
  | discovery
  | details
  | sequencing
  | comparison
  | unknown
deriving DecidableEq, BEq

/-- Pipeline phases the router runs through on the main path; used to state
that early returns perform no enhancement, classification, embedding or
search. -/
inductive Phase where
  | enhanced
  | classified
  | embedded
  | searched
deriving DecidableEq, BEq

/-- Session state read by `process_query`:
`session.get_current_stage()`, `session.get_selected_framework()` and
`session.get_conversation_history()`. -/
structure Session where
  stage : Stage
  selected_framework : Option Framework
  history : List Turn

/-- The collaborators `process_query` dispatches to.  Their implementations
(`handlers/*.py`, `utils/intent.py`, `utils/search.py`, `utils/session.py`)
are not part of the analysed sources; they are abstracted as total
functions, which also models the spec requirement that handlers return
`(text, list)` rather than raising. -/
structure Collab where
  handle_framework_selection : Chars → List Framework → Option Framework × Chars
  handle_diagnostic_analysis : Chars → Framework → Chars
  handle_diagnostic : Chars → List SearchRes → Chars × List Framework
  handle_discovery : Chars → List SearchRes → List Chars → Option Chars → Nat →
    Chars × List Framework
  handle_details : Nat → Chars
  handle_details_by_name : Chars → Chars
  handle_sequencing : Nat → Chars
  handle_sequencing_by_name : Chars → Chars
  handle_comparison_by_names : Chars → Chars → Chars
  detect_intent_with_context : Chars → List Turn → List Chars → Intent × ℚ
  embed_query : Chars → List ℚ
  search : List ℚ → Option (List Chars) → Option Chars → Option Chars → List SearchRes
  extract_framework_names : Chars → List Chars → List Chars
  get_framework_by_name : Chars → Option SearchRes

/-- Result of one routing pass: the `(response, frameworks)` pair returned by
`process_query`, the assignment to `st.session_state.available_frameworks`
(`none` when the branch does not assign it), and the pipeline phases run. -/
structure RouteResult where
  response : Chars
  frameworks : List Framework
  available_set : Option (List Framework)
  phases : List Phase
deriving DecidableEq

/-- The intent dispatch of `process_query` (`app.py` lines 515-580), returning
`(response, frameworks, available_frameworks assignment)`. -/
def dispatch_by_intent (c : Collab) (intent : Intent) (query : Chars)
    (search_results : List SearchRes) (known_names : List Chars)
    (domains_filter : List Chars) (difficulty : Option Chars) (df_len : Nat) :
    Chars × List Framework × Option (List Framework) :=
  match intent with
  | Intent.diagnostic =>
    let p := c.handle_diagnostic query search_results
    (p.1, p.2, some p.2)
  | Intent.discovery =>
    let p := c.handle_discovery query search_results domains_filter difficulty df_len
    (p.1, p.2, none)
  | Intent.details =>
    match c.extract_framework_names query known_names with
    | m :: _ =>
      (c.handle_details_by_name m,
        (match c.get_framework_by_name m with
         | some r => [r.framework_data]
         | none => []), none)
    | [] =>
      match search_results with
      | r :: _ => (c.handle_details r.framework_id, [r.framework_data], none)
      | [] =>
        (("I couldn\x27t identify which framework you\x27re asking about. Could you specify the name?").data,
          [], none)
  | Intent.sequencing =>
    match c.extract_framework_names query known_names with
    | m :: _ =>
      (c.handle_sequencing_by_name m,
        (match c.get_framework_by_name m with
         | some r => [r.framework_data]
         | none => []), none)
    | [] =>
      match search_results with
      | r :: _ => (c.handle_sequencing r.framework_id, [r.framework_data], none)
      | [] =>
        (("Please specify which framework you\x27d like to see the sequence for.").data, [], none)
  | Intent.comparison =>
    match c.extract_framework_names query known_names with
    | m0 :: m1 :: _ =>
      (c.handle_comparison_by_names m0 m1,
        [m0, m1].filterMap (fun n => (c.get_framework_by_name n).map (·.framework_data)),
        none)
    | [m0] =>
      match search_results with
      | r :: _ =>
        (c.handle_comparison_by_names m0 r.framework_data.name, [r.framework_data], none)
      | [] =>
        (("Please specify two frameworks to compare (e.g., \x27Compare SPIN Selling vs MEDDIC\x27).").data,
          [], none)
    | [] =>
      (("Please specify two frameworks to compare (e.g., \x27Compare SPIN Selling vs MEDDIC\x27).").data,
        [], none)
  | Intent.unknown =>
    let p := c.handle_diagnostic query search_results
    (p.1, p.2, some p.2)

/-- The main path of `process_query` (`app.py` lines 491-580): enhance the
query, classify intent with context, embed, search with active filters,
dispatch by intent. -/
def process_query_main (c : Collab) (query : Chars) (s : Session)
    (domains_filter : List Chars) (difficulty_filter type_filter : Chars)
    (known_names : List Chars) (df_len : Nat) : RouteResult :=
  let q := enhance_query_with_context query s.history
  let intent := (c.detect_intent_with_context q s.history known_names).1
  let emb := c.embed_query q
  let difficulty := if difficulty_filter == ("All").data then none else some difficulty_filter
  let fw_type := if type_filter == ("All").data then none else some type_filter
  let search_results :=
    c.search emb (if domains_filter.isEmpty then none else some domains_filter)
      difficulty fw_type
  let r := dispatch_by_intent c intent q search_results known_names domains_filter
    difficulty df_len
  ⟨r.1, r.2.1, r.2.2, [Phase.enhanced, Phase.classified, Phase.embedded, Phase.searched]⟩

/-- `process_query` from `app.py` (lines 446-580): first try to interpret the
input as a framework selection when the stage is `framework_selection` and an
offered list is available; then short-circuit to diagnostic analysis when the
stage is `diagnostic_active` and a framework is selected; otherwise run the
main path. -/
def process_query (c : Collab) (query : Chars) (s : Session)
    (available_frameworks : List Framework) (domains_filter : List Chars)
    (difficulty_filter type_filter : Chars) (known_names : List Chars)
    (df_len : Nat) : RouteResult :=
  match (if s.stage == Stage.framework_selection && !available_frameworks.isEmpty
         then some (c.handle_framework_selection query available_frameworks)
         else none) with
  | some (some fw, msg) => ⟨msg, [fw], none, []⟩
  | _ =>
    match (if s.stage == Stage.diagnostic_active then s.selected_framework else none) with
    | some fw => ⟨c.handle_diagnostic_analysis query fw, [], none, []⟩
    | none =>
      process_query_main c query s domains_filter difficulty_filter type_filter
        known_names df_len

/-- C5.  The COMPARISON branch of the router: with two or more extracted
names it compares the first two and displays exactly the frameworks those
names resolve to; with one extracted name and a non-empty search result it
compares that name with the top result and displays the top result; in every
other case it returns the fixed clarifying message with an empty display
list.  The branch is a total function, so no input raises. -/
theorem comparison_routing_cases (c : Collab) (query : Chars)
    (search_results : List SearchRes) (known_names : List Chars)
    (domains_filter : List Chars) (difficulty : Option Chars) (df_len : Nat) :
    (∀ m0 m1 rest, c.extract_framework_names query known_names = m0 :: m1 :: rest →
      dispatch_by_intent c Intent.comparison query search_results known_names
          domains_filter difficulty df_len =
        (c.handle_comparison_by_names m0 m1,
          [m0, m1].filterMap (fun n => (c.get_framework_by_name n).map (·.framework_data)),
          none)) ∧
    (∀ m0 r rest, c.extract_framework_names query known_names = [m0] →
      search_results = r :: rest →
      dispatch_by_intent c Intent.comparison query search_results known_names
          domains_filter difficulty df_len =
        (c.handle_comparison_by_names m0 r.framework_data.name, [r.framework_data], none)) ∧
    ((c.extract_framework_names query known_names = [] ∨
      ((c.extract_framework_names query known_names).length = 1 ∧ search_results = [])) →
      dispatch_by_intent c Intent.comparison query search_results known_names
          domains_filter difficulty df_len =
        (("Please specify two frameworks to compare (e.g., \x27Compare SPIN Selling vs MEDDIC\x27).").data,
          [], none)) := by
  refine ⟨?_, ?_, ?_⟩
  · intro m0 m1 rest h
    simp [dispatch_by_intent, h]
  · intro m0 r rest h hr
    simp [dispatch_by_intent, h, hr]
  · rintro (h | ⟨h1, h2⟩)
    · simp [dispatch_by_intent, h]
    · match hm : c.extract_framework_names query known_names with
      | [] => simp [dispatch_by_intent, hm]
      | [m0] => simp [dispatch_by_intent, hm, h2]
      | m0 :: m1 :: rest => rw [hm] at h1; simp at h1

/-- C6.  The UNKNOWN (else) branch of the intent dispatch is identical to the
DIAGNOSTIC branch: same diagnostic-handler call, same
`available_frameworks` assignment, same returned pair. -/
theorem unknown_intent_equals_diagnostic (c : Collab) (query : Chars)
    (search_results : List SearchRes) (known_names : List Chars)
    (domains_filter : List Chars) (difficulty : Option Chars) (df_len : Nat) :
    dispatch_by_intent c Intent.unknown query search_results known_names
        domains_filter difficulty df_len =
      dispatch_by_intent c Intent.diagnostic query search_results known_names
        domains_filter difficulty df_len ∧
    dispatch_by_intent c Intent.unknown query search_results known_names
        domains_filter difficulty df_len =
      ((c.handle_diagnostic query search_results).1,
        (c.handle_diagnostic query search_results).2,
        some (c.handle_diagnostic query search_results).2) :=
  ⟨rfl, rfl⟩

/-- C8 (amended).  When the stage is `diagnostic_active` and a framework is
selected, the router returns the diagnostic-analysis response with an empty
display list and runs none of the pipeline phases (no enhancement, no intent
classification, no embedding, no search).  The original claim omitted the
selected-framework condition; without it the router falls through to the full
pipeline (see `diagnostic_active_no_selection_cex`). -/
theorem diagnostic_active_short_circuit (c : Collab) (query : Chars) (s : Session)
    (available_frameworks : List Framework) (domains_filter : List Chars)
    (difficulty_filter type_filter : Chars) (known_names : List Chars)
    (df_len : Nat) (fw : Framework)
    (hstage : s.stage = Stage.diagnostic_active)
    (hsel : s.selected_framework = some fw) :
    process_query c query s available_frameworks domains_filter difficulty_filter
        type_filter known_names df_len =
      ⟨c.handle_diagnostic_analysis query fw, [], none, []⟩ := by
  have h1 : (Stage.diagnostic_active == Stage.framework_selection) = false := rfl
  have h2 : (Stage.diagnostic_active == Stage.diagnostic_active) = true := rfl
  simp [process_query, hstage, hsel, h1, h2]

/-- A concrete record used by the concrete routing scenarios. -/
def fwA : Framework := ⟨1, ("Alpha 1").data, ("T").data, ("Ops").data, ("Improve x").data⟩

/-- A concrete instantiation of the abstract collaborators, used to evaluate
the router on closed inputs. -/
def triv_collab : Collab where
  handle_framework_selection := fun _ _ => (none, ("sel").data)
  handle_diagnostic_analysis := fun _ _ => ("analysis").data
  handle_diagnostic := fun _ _ => (("diag").data, [fwA])
  handle_discovery := fun _ _ _ _ _ => (("disc").data, [])
  handle_details := fun _ => ("det").data
  handle_details_by_name := fun _ => ("detn").data
  handle_sequencing := fun _ => ("seq").data
  handle_sequencing_by_name := fun _ => ("seqn").data
  handle_comparison_by_names := fun _ _ => ("cmp").data
  detect_intent_with_context := fun _ _ _ => (Intent.diagnostic, 1)
  embed_query := fun _ => []
  search := fun _ _ _ _ => []
  extract_framework_names := fun _ _ => [("A").data, ("B").data]
  get_framework_by_name := fun _ => some ⟨1, fwA, 1⟩

theorem comparison_routing_witness :
    dispatch_by_intent triv_collab Intent.comparison ("q").data [] [] [] none 0 =
      (("cmp").data, [fwA, fwA], none) :=
  (comparison_routing_cases triv_collab ("q").data [] [] [] none 0).1
    ("A").data ("B").data [] rfl

theorem diagnostic_active_short_circuit_witness :
    process_query triv_collab ("answers").data
        ⟨Stage.diagnostic_active, some fwA, []⟩ [] [] ("All").data ("All").data [] 0 =
      ⟨("analysis").data, [], none, []⟩ :=
  diagnostic_active_short_circuit triv_collab ("answers").data
    ⟨Stage.diagnostic_active, some fwA, []⟩ [] [] ("All").data ("All").data [] 0 fwA
    rfl rfl

/-- C8 counterexample: with stage `diagnostic_active` but no selected
framework, the router does not return an analysis with an empty list; it runs
the full pipeline (enhancement, classification, embedding, search) and
returns the diagnostic handler's non-empty framework list, contradicting the
claim as stated over every session state in that stage. -/
theorem diagnostic_active_no_selection_cex :
    (process_query triv_collab ("q").data ⟨Stage.diagnostic_active, none, []⟩
        [] [] ("All").data ("All").data [] 0).phases =
      [Phase.enhanced, Phase.classified, Phase.embedded, Phase.searched] ∧
    (process_query triv_collab ("q").data ⟨Stage.diagnostic_active, none, []⟩
        [] [] ("All").data ("All").data [] 0).frameworks ≠ [] := by
  constructor
  · decide
  · decide

/-- A record paired with its cleaned display name: the dict
`{**fw, '_display_name': cleaned_name}` built by `get_unique_frameworks`,
`group_frameworks_alphabetically` and (after dropping the transient search
score) `fuzzy_search_frameworks`. -/
structure Listed where
  fw : Framework
  display_name : Chars
deriving DecidableEq

/-- Exact arithmetic on unnormalized fractions with positive denominators,
modelling the Python float search score (whose values here are exact
decimals).  On the fractions produced below its ordering agrees with the
rational one; unlike `ℚ` it evaluates inside the kernel, and no property
proved below depends on the resulting order anyway. -/
structure PyFloat where
  num : Int
  den : Int
deriving DecidableEq

def PyFloat.add (a b : PyFloat) : PyFloat :=
  ⟨a.num * b.den + b.num * a.den, a.den * b.den⟩

def PyFloat.sub (a b : PyFloat) : PyFloat :=
  ⟨a.num * b.den - b.num * a.den, a.den * b.den⟩

def PyFloat.mul (a b : PyFloat) : PyFloat :=
  ⟨a.num * b.num, a.den * b.den⟩

def PyFloat.le (a b : PyFloat) : Bool :=
  decide (a.num * b.den ≤ b.num * a.den)

/-- A fuzzy-search match: the dict
`{**fw, '_search_score': score, '_display_name': cleaned_name}`. -/
structure Scored where
  fw : Framework
  search_score : PyFloat
  display_name : Chars
deriving DecidableEq

/-- The score computation of `fuzzy_search_frameworks`
(`components/framework_index.py` lines 58-65):
`start_bonus + length_ratio * 5 - position * 0.1`.  It depends only on the
lowered cleaned name and the query, so records sharing a cleaned name get
identical scores. -/
def match_score (query_lower nl : Chars) : PyFloat :=
  let position := findSubstrPos query_lower nl
  let length_ratio : PyFloat :=
    if nl.isEmpty then ⟨0, 1⟩ else ⟨(query_lower.length : Int), (nl.length : Int)⟩
  let start_bonus : PyFloat := if position = 0 then ⟨10, 1⟩ else ⟨0, 1⟩
  (start_bonus.add (length_ratio.mul ⟨5, 1⟩)).sub
    (PyFloat.mul ⟨(position : Int), 1⟩ ⟨1, 10⟩)

/-- The loop body of the match collection in `fuzzy_search_frameworks`
(`components/framework_index.py` lines 51-71), applied to an already lowered
and stripped query: `None` when the query is not a substring of the lowered
cleaned name, otherwise the scored entry. -/
def score_entry (query_lower : Chars) (fw : Framework) : Option Scored :=
  let cleaned := clean_framework_name fw.name
  let nl := pyLower cleaned
  if is_substring query_lower nl then
    some ⟨fw, match_score query_lower nl, cleaned⟩
  else none

/-- The match-collection loop of `fuzzy_search_frameworks`. -/
def fuzzy_matches (frameworks : List Framework) (query_lower : Chars) : List Scored :=
  frameworks.filterMap (score_entry query_lower)

/-- Sort order of `matches.sort(key=lambda x: x['_search_score'], reverse=True)`:
a stable sort placing higher scores first. -/
def scored_ge (a b : Scored) : Prop :=
  PyFloat.le b.search_score a.search_score = true

instance : DecidableRel scored_ge :=
  fun a b => inferInstanceAs (Decidable (PyFloat.le b.search_score a.search_score = true))

/-- The dedup-and-cap loop of `fuzzy_search_frameworks` (lines 76-87): walk
the sorted matches, keep the first entry of each cleaned name, and stop once
`max_results` entries have been kept.  The break fires after the append, so a
zero cap still keeps one entry. -/
def dedup_take (max_results : Nat) : List Chars → List Scored → List Scored
  | _, [] => []
  | seen, m :: ms =>
    if m.display_name ∈ seen then dedup_take max_results seen ms
    else if max_results ≤ seen.length + 1 then [m]
    else m :: dedup_take max_results (m.display_name :: seen) ms

/-- `fuzzy_search_frameworks` from `components/framework_index.py`
(lines 27-87). -/
def fuzzy_search_frameworks (frameworks : List Framework) (query : Chars)
    (max_results : Nat) : List Scored :=
  if query.isEmpty || query.length < 2 then []
  else
    dedup_take max_results []
      (List.insertionSort scored_ge (fuzzy_matches frameworks (pyStrip (pyLower query))))

/-- The shared dedup loop of `get_unique_frameworks` (`handlers/library.py`
lines 71-83) and `group_frameworks_alphabetically`
(`components/framework_index.py` lines 219-232): keep a record when its
cleaned name is non-empty and not seen before. -/
def uniq_by_clean : List Chars → List Framework → List Listed
  | _, [] => []
  | seen, f :: fs =>
    let c := clean_framework_name f.name
    if c ≠ [] ∧ c ∉ seen then ⟨f, c⟩ :: uniq_by_clean (c :: seen) fs
    else uniq_by_clean seen fs

/-- Sort order of `unique.sort(key=lambda x: x.get('_display_name','').upper())`:
a stable sort by the uppercased display name. -/
def listed_le (a b : Listed) : Prop :=
  lexLe (pyUpper a.display_name) (pyUpper b.display_name) = true

instance : DecidableRel listed_le :=
  fun a b =>
    inferInstanceAs (Decidable (lexLe (pyUpper a.display_name) (pyUpper b.display_name) = true))

/-- `get_unique_frameworks` from `handlers/library.py` (lines 61-87). -/
def get_unique_frameworks (fws : List Framework) : List Listed :=
  List.insertionSort listed_le (uniq_by_clean [] fws)

/-- Insertion into the ordered dict `grouped` of
`group_frameworks_alphabetically`: append to an existing letter bucket or add
a new bucket at the end (Python dicts preserve insertion order). -/
def add_to_group (letter : Char) (x : Listed) :
    List (Char × List Listed) → List (Char × List Listed)
  | [] => [(letter, [x])]
  | (k, xs) :: rest =>
    if k = letter then (k, xs ++ [x]) :: rest
    else (k, xs) :: add_to_group letter x rest

/-- The grouping loop of `group_frameworks_alphabetically` (lines 238-251):
skip empty display names, bucket by the uppercased first character when it is
alphabetic and under `#` otherwise. -/
def group_loop : List Listed → List (Char × List Listed) → List (Char × List Listed)
  | [], acc => acc
  | fw :: fws, acc =>
    match fw.display_name with
    | [] => group_loop fws acc
    | ch :: _ =>
      let u := ch.toUpper
      let letter := if u.isAlpha then u else '#'
      group_loop fws (add_to_group letter fw acc)

/-- `group_frameworks_alphabetically` from `components/framework_index.py`
(lines 205-253): dedup by cleaned name, sort by uppercased display name,
group by first letter. -/
def group_frameworks_alphabetically (fws : List Framework) :
    List (Char × List Listed) :=
  group_loop (List.insertionSort listed_le (uniq_by_clean [] fws)) []

/-- Type filter of `render_library_index` (`handlers/library.py` line 366);
`none` models the `All Types` selection. -/
def type_stage (tf : Option Chars) (l : List Listed) : List Listed :=
  match tf with
  | none => l
  | some t => l.filter (fun e => decide (e.fw.type = t))

/-- Domain filter of `render_library_index` (lines 367-369): case-insensitive
substring test against `business_domains`. -/
def domain_stage (df : Option Chars) (l : List Listed) : List Listed :=
  match df with
  | none => l
  | some d => l.filter (fun e => is_substring (pyLower d) (pyLower e.fw.business_domains))

/-- Search filter of `render_library_index` (lines 370-371): when a search
query is present, replace the list by the fuzzy search capped at 50 results
(the transient search score is dropped from the carried entries). -/
def search_stage (sq : Chars) (l : List Listed) : List Listed :=
  if !sq.isEmpty then
    (fuzzy_search_frameworks (l.map (·.fw)) sq 50).map (fun s => ⟨s.fw, s.display_name⟩)
  else l

/-- The filtering pipeline of `render_library_index` (`handlers/library.py`
lines 360-374): unique frameworks, then type, domain and search filters. -/
def render_library_index_filtered (fws : List Framework) (tf df : Option Chars)
    (sq : Chars) : List Listed :=
  search_stage sq (domain_stage df (type_stage tf (get_unique_frameworks fws)))

/-- The filtering pipeline of `render_framework_index_page`
(`handlers/library_clean.py` lines 103-124): type equality, case-sensitive
domain substring, lowercased name substring; `none` models the `All`
selections. -/
def render_framework_index_page_filtered (fws : List Framework)
    (tf df : Option Chars) (sq : Chars) : List Framework :=
  let l1 := match tf with
    | none => fws
    | some t => fws.filter (fun fw => decide (fw.type = t))
  let l2 := match df with
    | none => l1
    | some d => l1.filter (fun fw => is_substring d fw.business_domains)
  if !sq.isEmpty then l2.filter (fun fw => is_substring (pyLower sq) (pyLower fw.name))
  else l2

lemma space_not_digit (c : Char) (h : py_isSpace c = true) : c.isDigit = false := by
  simp only [py_isSpace, Bool.or_eq_true, beq_iff_eq] at h
  rcases h with ((((rfl | rfl) | rfl) | rfl) | rfl) | rfl <;> decide

lemma takeWhile_append_all (p : Char → Bool) (xs ys : Chars)
    (h : ∀ c ∈ xs, p c = true) :
    (xs ++ ys).takeWhile p = xs ++ ys.takeWhile p := by
  induction xs with
  | nil => simp
  | cons a l ih =>
    have ha := h a (by simp)
    simp [List.takeWhile_cons, ha]
    exact ih fun c hc => h c (by simp [hc])

lemma dropWhile_append_all (p : Char → Bool) (xs ys : Chars)
    (h : ∀ c ∈ xs, p c = true) :
    (xs ++ ys).dropWhile p = ys.dropWhile p := by
  induction xs with
  | nil => simp
  | cons a l ih =>
    have ha := h a (by simp)
    simp [List.dropWhile_cons, ha]
    exact ih fun c hc => h c (by simp [hc])

/-- Cleaning a name of the form `base ++ whitespace ++ digits` yields `base`
with its trailing whitespace removed, independently of the particular
whitespace run and digit run. -/
lemma clean_name_token (b w d : Chars) (hw : w ≠ [])
    (hwsp : ∀ c ∈ w, py_isSpace c = true) (hd : d ≠ [])
    (hdig : ∀ c ∈ d, c.isDigit = true) :
    clean_framework_name (b ++ w ++ d) = (b.reverse.dropWhile py_isSpace).reverse := by
  obtain ⟨c, t, hct⟩ := List.exists_cons_of_ne_nil (by simpa using hw : w.reverse ≠ [])
  have hcw : c ∈ w := by
    have : c ∈ w.reverse := by rw [hct]; simp
    simpa using this
  have hcsp : py_isSpace c = true := hwsp c hcw
  have hcd : c.isDigit = false := space_not_digit c hcsp
  have hrev : (b ++ w ++ d).reverse = d.reverse ++ (w.reverse ++ b.reverse) := by
    simp [List.reverse_append]
  have hdr : ∀ x ∈ d.reverse, x.isDigit = true := fun x hx => hdig x (by simpa using hx)
  have hwr : ∀ x ∈ w.reverse, py_isSpace x = true := fun x hx => hwsp x (by simpa using hx)
  have htake : (d.reverse ++ (w.reverse ++ b.reverse)).takeWhile Char.isDigit = d.reverse := by
    rw [takeWhile_append_all _ _ _ hdr, hct]
    simp [List.takeWhile_cons, hcd]
  have hdrop : (d.reverse ++ (w.reverse ++ b.reverse)).dropWhile Char.isDigit =
      w.reverse ++ b.reverse := by
    rw [dropWhile_append_all _ _ _ hdr, hct]
    simp [List.dropWhile_cons, hcd]
  have htake2 : (w.reverse ++ b.reverse).takeWhile py_isSpace =
      w.reverse ++ b.reverse.takeWhile py_isSpace :=
    takeWhile_append_all _ _ _ hwr
  have hdrop2 : (w.reverse ++ b.reverse).dropWhile py_isSpace =
      b.reverse.dropWhile py_isSpace :=
    dropWhile_append_all _ _ _ hwr
  have h1 : d.reverse.isEmpty = false := by
    cases hde : d.reverse with
    | nil => exact absurd (by simpa using hde) hd
    | cons x xs => simp
  have h2 : (w.reverse ++ b.reverse.takeWhile py_isSpace).isEmpty = false := by
    rw [hct]; simp
  simp only [clean_framework_name]
  rw [hrev, htake, hdrop, htake2, hdrop2]
  simp [h1, h2]

lemma uniq_mem_spec : ∀ (fs : List Framework) (seen : List Chars) (e : Listed),
    e ∈ uniq_by_clean seen fs →
    e.display_name ∉ seen ∧ e.display_name ≠ [] ∧
      clean_framework_name e.fw.name = e.display_name ∧
      fs.find? (fun f => decide (clean_framework_name f.name = e.display_name)) =
        some e.fw := by
  intro fs
  induction fs with
  | nil => intro seen e h; simp [uniq_by_clean] at h
  | cons f fs ih =>
    intro seen e h
    simp only [uniq_by_clean] at h
    by_cases hc : clean_framework_name f.name ≠ [] ∧ clean_framework_name f.name ∉ seen
    · rw [if_pos hc] at h
      rcases List.mem_cons.mp h with rfl | hmem
      · refine ⟨hc.2, hc.1, rfl, ?_⟩
        exact List.find?_cons_of_pos _ (by simp)
      · obtain ⟨h1, h2, h3, h4⟩ := ih _ e hmem
        have hne : e.display_name ≠ clean_framework_name f.name :=
          fun hx => h1 (hx ▸ List.mem_cons_self _ _)
        refine ⟨fun hx => h1 (List.mem_cons_of_mem _ hx), h2, h3, ?_⟩
        rw [List.find?_cons_of_neg _ (by simpa using fun hx => hne hx.symm)]
        exact h4
    · rw [if_neg hc] at h
      obtain ⟨h1, h2, h3, h4⟩ := ih _ e h
      have hne : clean_framework_name f.name ≠ e.display_name := by
        intro hx
        rcases not_and_or.mp hc with hc1 | hc2
        · exact h2 (hx ▸ (not_not.mp hc1))
        · exact h1 (hx ▸ not_not.mp hc2)
      exact ⟨h1, h2, h3, by rw [List.find?_cons_of_neg _ (by simpa using hne)]; exact h4⟩

lemma uniq_count_zero (fs : List Framework) (seen : List Chars) (c : Chars)
    (h : c ∈ seen) :
    (uniq_by_clean seen fs).countP (fun e => decide (e.display_name = c)) = 0 := by
  rw [List.countP_eq_zero]
  intro e he
  have h1 := (uniq_mem_spec fs seen e he).1
  simp only [decide_eq_true_eq]
  intro heq
  exact h1 (heq ▸ h)

lemma uniq_count_one : ∀ (fs : List Framework) (seen : List Chars) (c : Chars),
    c ∉ seen → c ≠ [] →
    (uniq_by_clean seen fs).countP (fun e => decide (e.display_name = c)) =
      if fs.any (fun f => decide (clean_framework_name f.name = c)) then 1 else 0 := by
  intro fs
  induction fs with
  | nil => intro seen c _ _; simp [uniq_by_clean]
  | cons f fs ih =>
    intro seen c hseen hne
    simp only [uniq_by_clean, List.any_cons]
    by_cases hcf : clean_framework_name f.name ≠ [] ∧ clean_framework_name f.name ∉ seen
    · rw [if_pos hcf, List.countP_cons]
      by_cases heq : clean_framework_name f.name = c
      · subst heq
        have hz := uniq_count_zero fs (clean_framework_name f.name :: seen) _
          (List.mem_cons_self _ _)
        simp [hz]
      · have : c ∉ clean_framework_name f.name :: seen := by
          intro hx
          rcases List.mem_cons.mp hx with hx | hx
          · exact heq hx.symm
          · exact hseen hx
        rw [ih _ c this hne]
        simp [heq]
    · rw [if_neg hcf]
      have hne2 : clean_framework_name f.name ≠ c := by
        intro hx
        rcases not_and_or.mp hcf with hc1 | hc2
        · exact hne (hx ▸ not_not.mp hc1)
        · exact hseen (hx ▸ not_not.mp hc2)
      rw [ih _ c hseen hne]
      simp [hne2]

lemma uniq_nodup_names : ∀ (fs : List Framework) (seen : List Chars),
    ((uniq_by_clean seen fs).map (·.display_name)).Nodup := by
  intro fs
  induction fs with
  | nil => intro seen; simp [uniq_by_clean]
  | cons f fs ih =>
    intro seen
    simp only [uniq_by_clean]
    by_cases hc : clean_framework_name f.name ≠ [] ∧ clean_framework_name f.name ∉ seen
    · rw [if_pos hc]
      simp only [List.map_cons, List.nodup_cons]
      refine ⟨?_, ih _⟩
      intro hx
      rcases List.mem_map.mp hx with ⟨e, he, hdisp⟩
      have := (uniq_mem_spec fs (clean_framework_name f.name :: seen) e he).1
      exact this (hdisp ▸ List.mem_cons_self _ _)
    · rw [if_neg hc]
      exact ih _

lemma dedup_take_subset (mr : Nat) : ∀ (l : List Scored) (seen : List Chars)
    (e : Scored), e ∈ dedup_take mr seen l → e ∈ l := by
  intro l
  induction l with
  | nil => intro seen e h; simp [dedup_take] at h
  | cons m ms ih =>
    intro seen e h
    simp only [dedup_take] at h
    by_cases h1 : m.display_name ∈ seen
    · rw [if_pos h1] at h
      exact List.mem_cons_of_mem _ (ih _ _ h)
    · rw [if_neg h1] at h
      by_cases h2 : mr ≤ seen.length + 1
      · rw [if_pos h2] at h
        rcases List.mem_singleton.mp h with rfl
        exact List.mem_cons_self _ _
      · rw [if_neg h2] at h
        rcases List.mem_cons.mp h with rfl | h
        · exact List.mem_cons_self _ _
        · exact List.mem_cons_of_mem _ (ih _ _ h)

lemma dedup_take_not_seen (mr : Nat) : ∀ (l : List Scored) (seen : List Chars)
    (e : Scored), e ∈ dedup_take mr seen l → e.display_name ∉ seen := by
  intro l
  induction l with
  | nil => intro seen e h; simp [dedup_take] at h
  | cons m ms ih =>
    intro seen e h
    simp only [dedup_take] at h
    by_cases h1 : m.display_name ∈ seen
    · rw [if_pos h1] at h
      exact ih _ _ h
    · rw [if_neg h1] at h
      by_cases h2 : mr ≤ seen.length + 1
      · rw [if_pos h2] at h
        rcases List.mem_singleton.mp h with rfl
        exact h1
      · rw [if_neg h2] at h
        rcases List.mem_cons.mp h with rfl | h
        · exact h1
        · intro hx
          exact ih _ _ h (List.mem_cons_of_mem _ hx)

lemma dedup_take_count_zero (mr : Nat) : ∀ (l : List Scored) (seen : List Chars)
    (c : Chars), c ∈ seen →
    (dedup_take mr seen l).countP (fun e => decide (e.display_name = c)) = 0 := by
  intro l seen c hc
  rw [List.countP_eq_zero]
  intro e he
  simp only [decide_eq_true_eq]
  intro heq
  exact dedup_take_not_seen mr l seen e he (heq ▸ hc)

lemma dedup_take_count_le_one (mr : Nat) : ∀ (l : List Scored) (seen : List Chars)
    (c : Chars),
    (dedup_take mr seen l).countP (fun e => decide (e.display_name = c)) ≤ 1 := by
  intro l
  induction l with
  | nil => intro seen c; simp [dedup_take]
  | cons m ms ih =>
    intro seen c
    simp only [dedup_take]
    by_cases h1 : m.display_name ∈ seen
    · rw [if_pos h1]; exact ih _ _
    · rw [if_neg h1]
      by_cases h2 : mr ≤ seen.length + 1
      · rw [if_pos h2]
        exact le_trans (List.countP_le_length _) (by simp)
      · rw [if_neg h2, List.countP_cons]
        by_cases heq : m.display_name = c
        · subst heq
          have hz := dedup_take_count_zero mr ms (m.display_name :: seen) _
            (List.mem_cons_self _ _)
          simp [hz]
        · simp only [heq, decide_eq_true_eq, if_neg]
          simpa using ih (m.display_name :: seen) c

lemma dedup_take_length_le_input (mr : Nat) : ∀ (l : List Scored) (seen : List Chars),
    (dedup_take mr seen l).length ≤ l.length := by
  intro l
  induction l with
  | nil => intro seen; simp [dedup_take]
  | cons m ms ih =>
    intro seen
    simp only [dedup_take]
    by_cases h1 : m.display_name ∈ seen
    · rw [if_pos h1]
      exact le_trans (ih _) (by simp)
    · rw [if_neg h1]
      by_cases h2 : mr ≤ seen.length + 1
      · rw [if_pos h2]; simp
      · rw [if_neg h2]
        simpa using ih (m.display_name :: seen)

lemma dedup_take_length_le_cap (mr : Nat) : ∀ (l : List Scored) (seen : List Chars),
    seen.length < mr → (dedup_take mr seen l).length ≤ mr - seen.length := by
  intro l
  induction l with
  | nil => intro seen _; simp [dedup_take]
  | cons m ms ih =>
    intro seen hlt
    simp only [dedup_take]
    by_cases h1 : m.display_name ∈ seen
    · rw [if_pos h1]; exact ih _ hlt
    · rw [if_neg h1]
      by_cases h2 : mr ≤ seen.length + 1
      · rw [if_pos h2]
        simp only [List.length_singleton]
        omega
      · rw [if_neg h2]
        have := ih (m.display_name :: seen) (by simp; omega)
        simp only [List.length_cons] at this ⊢
        omega

lemma dedup_take_eq_self (mr : Nat) : ∀ (l : List Scored) (seen : List Chars),
    (l.map (·.display_name)).Nodup →
    (∀ n ∈ l.map (·.display_name), n ∉ seen) →
    seen.length + l.length ≤ mr → dedup_take mr seen l = l := by
  intro l
  induction l with
  | nil => intro seen _ _ _; simp [dedup_take]
  | cons m ms ih =>
    intro seen hnd hdis hle
    simp only [List.map_cons, List.nodup_cons] at hnd
    have h1 : m.display_name ∉ seen := hdis _ (by simp)
    simp only [dedup_take, if_neg h1]
    by_cases h2 : mr ≤ seen.length + 1
    · have hms : ms = [] := by
        simp only [List.length_cons] at hle
        cases ms with
        | nil => rfl
        | cons x xs => exfalso; simp only [List.length_cons] at hle; omega
      rw [if_pos h2, hms]
    · rw [if_neg h2]
      congr 1
      refine ih (m.display_name :: seen) hnd.2 ?_ ?_
      · intro n hn
        simp only [List.mem_cons]
        rintro (rfl | hx)
        · exact hnd.1 hn
        · exact hdis n (by simp [hn]) hx
      · simp only [List.length_cons] at hle ⊢
        omega

lemma dedup_take_length_min (mr : Nat) : ∀ (l : List Scored) (seen : List Chars),
    (l.map (·.display_name)).Nodup →
    (∀ n ∈ l.map (·.display_name), n ∉ seen) →
    seen.length < mr →
    (dedup_take mr seen l).length = min (mr - seen.length) l.length := by
  intro l
  induction l with
  | nil => intro seen _ _ hlt; simp [dedup_take]
  | cons m ms ih =>
    intro seen hnd hdis hlt
    simp only [List.map_cons, List.nodup_cons] at hnd
    have h1 : m.display_name ∉ seen := hdis _ (by simp)
    simp only [dedup_take, if_neg h1]
    by_cases h2 : mr ≤ seen.length + 1
    · rw [if_pos h2]
      simp only [List.length_cons, List.length_nil]
      omega
    · rw [if_neg h2]
      have hrec := ih (m.display_name :: seen) hnd.2 ?_ ?_
      · simp only [List.length_cons] at hrec ⊢
        rw [hrec]
        omega
      · intro n hn
        simp only [List.mem_cons]
        rintro (rfl | hx)
        · exact hnd.1 hn
        · exact hdis n (by simp [hn]) hx
      · simp only [List.length_cons]
        omega

lemma score_entry_eq (ql : Chars) (fw : Framework) (e : Scored)
    (h : score_entry ql fw = some e) :
    e.fw = fw ∧ e.display_name = clean_framework_name fw.name ∧
      is_substring ql (pyLower e.display_name) = true := by
  by_cases hc : is_substring ql (pyLower (clean_framework_name fw.name)) = true
  · simp only [score_entry, hc, if_true] at h
    obtain rfl := Option.some.inj h
    exact ⟨rfl, rfl, hc⟩
  · simp only [score_entry] at h
    rw [if_neg hc] at h
    exact absurd h (by simp)

lemma fuzzy_matches_mem (fws : List Framework) (ql : Chars) (e : Scored)
    (h : e ∈ fuzzy_matches fws ql) :
    e.fw ∈ fws ∧ e.display_name = clean_framework_name e.fw.name ∧
      is_substring ql (pyLower e.display_name) = true := by
  rcases List.mem_filterMap.mp h with ⟨fw, hfw, hsome⟩
  obtain ⟨h1, h2, h3⟩ := score_entry_eq ql fw e hsome
  exact ⟨h1 ▸ hfw, h1 ▸ h2, h3⟩

lemma fuzzy_matches_mem_of (fws₁ fws₂ : List Framework) (ql : Chars) (e : Scored)
    (h1 : e ∈ fuzzy_matches fws₁ ql) (h2 : e.fw ∈ fws₂) :
    e ∈ fuzzy_matches fws₂ ql := by
  rcases List.mem_filterMap.mp h1 with ⟨fw, _, hsome⟩
  have hfw := (score_entry_eq ql fw e hsome).1
  exact List.mem_filterMap.mpr ⟨e.fw, h2, hfw ▸ hsome⟩

lemma fuzzy_matches_sublist (fws₁ fws₂ : List Framework) (ql : Chars)
    (h : fws₁.Sublist fws₂) :
    (fuzzy_matches fws₁ ql).Sublist (fuzzy_matches fws₂ ql) :=
  List.Sublist.filterMap _ h

lemma fuzzy_matches_names_sublist (fws : List Framework) (ql : Chars) :
    ((fuzzy_matches fws ql).map (·.display_name)).Sublist
      (fws.map (fun fw => clean_framework_name fw.name)) := by
  induction fws with
  | nil => simp [fuzzy_matches]
  | cons fw fs ih =>
    simp only [fuzzy_matches, List.filterMap_cons, List.map_cons]
    cases hse : score_entry ql fw with
    | none => exact (ih).cons _
    | some e =>
      simp only [List.map_cons]
      have := (score_entry_eq ql fw e hse).2.1
      rw [this]
      exact (ih).cons₂ _

lemma fuzzy_search_mem (fws : List Framework) (q : Chars) (mr : Nat) (e : Scored)
    (h : e ∈ fuzzy_search_frameworks fws q mr) :
    e ∈ fuzzy_matches fws (pyStrip (pyLower q)) := by
  unfold fuzzy_search_frameworks at h
  split at h
  · simp at h
  · exact (List.mem_insertionSort scored_ge).mp
      (dedup_take_subset mr _ _ e h)

/-- C10 (amended).  `fuzzy_search_frameworks` returns the empty list whenever
the query is empty or shorter than 2 characters; otherwise (as always) every
returned entry's cleaned name contains the lowercased stripped query as a
case-insensitive substring, and the result has at most `max_results` entries
provided `max_results ≥ 1`.  The original claim's unconditional cap fails at
`max_results = 0`: the dedup loop checks the cap only after appending, so one
entry is returned (see `fuzzy_search_zero_cap_cex`). -/
theorem fuzzy_search_bounds (fws : List Framework) (q : Chars) (mr : Nat) :
    (q = [] ∨ q.length < 2 → fuzzy_search_frameworks fws q mr = []) ∧
    (1 ≤ mr → (fuzzy_search_frameworks fws q mr).length ≤ mr) ∧
    (∀ e ∈ fuzzy_search_frameworks fws q mr,
      is_substring (pyStrip (pyLower q)) (pyLower e.display_name) = true) := by
  refine ⟨?_, ?_, ?_⟩
  · intro h
    have hcond : (q.isEmpty || decide (q.length < 2)) = true := by
      rcases h with rfl | h
      · simp
      · simp [h]
    simp only [fuzzy_search_frameworks]
    simp [hcond]
  · intro hmr
    unfold fuzzy_search_frameworks
    split
    · simp
    · have := dedup_take_length_le_cap mr
        (List.insertionSort scored_ge (fuzzy_matches fws (pyStrip (pyLower q)))) []
        (by simpa using hmr)
      simpa using this
  · intro e he
    exact (fuzzy_matches_mem fws _ e (fuzzy_search_mem fws q mr e he)).2.2

theorem fuzzy_search_bounds_witness :
    fuzzy_search_frameworks [fwA] ("x").data 10 = [] ∧
      (fuzzy_search_frameworks [fwA] ("al").data 10).length ≤ 10 :=
  ⟨(fuzzy_search_bounds [fwA] ("x").data 10).1 (Or.inr (by decide)),
    (fuzzy_search_bounds [fwA] ("al").data 10).2.1 (by decide)⟩

/-- C10 counterexample: with `max_results = 0` and one matching record
(`fwA`, cleaned name `Alpha`, query `al`), the search returns one entry, not
at most zero: the loop `if len(unique_matches) >= max_results: break` runs
only after the append. -/
theorem fuzzy_search_zero_cap_cex :
    (fuzzy_search_frameworks [fwA] ("al").data 0).length = 1 ∧
      ¬ (fuzzy_search_frameworks [fwA] ("al").data 0).length ≤ 0 := by
  constructor
  · decide
  · decide

/-- Number of entries carrying display name `c` across all buckets of a
grouping. -/
def groups_countP (g : List (Char × List Listed)) (c : Chars) : Nat :=
  ((g.map Prod.snd).flatten).countP (fun e => decide (e.display_name = c))

lemma add_to_group_count (k : Char) (x : Listed) (c : Chars) :
    ∀ acc, groups_countP (add_to_group k x acc) c =
      groups_countP acc c + (if x.display_name = c then 1 else 0) := by
  intro acc
  induction acc with
  | nil =>
    simp [add_to_group, groups_countP, List.countP_cons]
  | cons p rest ih =>
    obtain ⟨k', xs⟩ := p
    by_cases hk : k' = k
    · simp only [add_to_group, if_pos hk, groups_countP, List.map_cons,
        List.flatten_cons, List.countP_append] at *
      simp [List.countP_cons]
      omega
    · simp only [add_to_group, if_neg hk, groups_countP, List.map_cons,
        List.flatten_cons, List.countP_append] at *
      omega

lemma group_loop_count (c : Chars) (hc : c ≠ []) : ∀ (l : List Listed)
    (acc : List (Char × List Listed)),
    groups_countP (group_loop l acc) c =
      groups_countP acc c + l.countP (fun e => decide (e.display_name = c)) := by
  intro l
  induction l with
  | nil => intro acc; simp [group_loop]
  | cons fw fws ih =>
    intro acc
    simp only [group_loop]
    cases hd : fw.display_name with
    | nil =>
      rw [ih]
      have hne : decide (fw.display_name = c) = false := by
        simp only [decide_eq_false_iff_not]
        rw [hd]
        exact fun h => hc h.symm
      simp [List.countP_cons, hne]
    | cons ch tl =>
      rw [ih, add_to_group_count]
      simp only [List.countP_cons]
      by_cases he : fw.display_name = c
      · simp [he]
        omega
      · simp [he]

lemma fuzzy_search_count_le_one (fws : List Framework) (q : Chars) (mr : Nat)
    (c : Chars) :
    (fuzzy_search_frameworks fws q mr).countP
      (fun e => decide (e.display_name = c)) ≤ 1 := by
  unfold fuzzy_search_frameworks
  split
  · simp
  · exact dedup_take_count_le_one mr _ [] c

lemma pyfloat_le_refl (a : PyFloat) : PyFloat.le a a = true := by
  simp [PyFloat.le]

lemma fuzzy_matches_score (fws : List Framework) (ql : Chars) (e : Scored)
    (h : e ∈ fuzzy_matches fws ql) :
    e.search_score = match_score ql (pyLower e.display_name) := by
  rcases List.mem_filterMap.mp h with ⟨fw, _, hsome⟩
  by_cases hc : is_substring ql (pyLower (clean_framework_name fw.name)) = true
  · simp only [score_entry, hc, if_true] at hsome
    obtain rfl := Option.some.inj hsome
    rfl
  · simp only [score_entry] at hsome
    rw [if_neg hc] at hsome
    exact absurd hsome (by simp)

lemma find_eq_filter_head {α : Type} (p : α → Bool) :
    ∀ l : List α, l.find? p = (l.filter p).head? := by
  intro l
  induction l with
  | nil => rfl
  | cons a l ih =>
    by_cases hpa : p a = true
    · rw [List.find?_cons_of_pos _ hpa, List.filter_cons_of_pos hpa]
      rfl
    · rw [List.find?_cons_of_neg _ (by simpa using hpa),
        List.filter_cons_of_neg (by simpa using hpa)]
      exact ih

lemma filter_orderedInsert_of_pos {α : Type} (r : α → α → Prop) [DecidableRel r]
    (p : α → Bool) (a : α) (ha : p a = true) :
    ∀ l : List α, (∀ y ∈ l, p y = true → r a y) →
      (List.orderedInsert r a l).filter p = a :: l.filter p := by
  intro l
  induction l with
  | nil => intro _; simp [List.orderedInsert, ha]
  | cons b bs ih =>
    intro hl
    by_cases hr : r a b
    · simp [List.orderedInsert, hr, List.filter_cons, ha]
    · have hpb : p b = false := by
        cases hpb : p b with
        | true => exact absurd (hl b (by simp) hpb) hr
        | false => rfl
      simp only [List.orderedInsert, if_neg hr, List.filter_cons, hpb,
        Bool.false_eq_true, if_false]
      exact ih fun y hy => hl y (by simp [hy])

lemma filter_orderedInsert_of_neg {α : Type} (r : α → α → Prop) [DecidableRel r]
    (p : α → Bool) (a : α) (ha : p a = false) :
    ∀ l : List α, (List.orderedInsert r a l).filter p = l.filter p := by
  intro l
  induction l with
  | nil => simp [List.orderedInsert, List.filter_cons, ha]
  | cons b bs ih =>
    by_cases hr : r a b
    · simp [List.orderedInsert, hr, List.filter_cons, ha]
    · simp only [List.orderedInsert, if_neg hr, List.filter_cons]
      rw [ih]

/-- Stability of insertion sort on a class of pairwise-tied elements: the
subsequence of elements satisfying `p` is unchanged by sorting whenever the
`p`-elements of the list are pairwise related by `r` in both directions. -/
lemma insertionSort_filter_stable {α : Type} (r : α → α → Prop) [DecidableRel r]
    (p : α → Bool) :
    ∀ l : List α, (∀ x ∈ l, ∀ y ∈ l, p x = true → p y = true → r x y) →
      (List.insertionSort r l).filter p = l.filter p := by
  intro l
  induction l with
  | nil => intro _; rfl
  | cons x xs ih =>
    intro hl
    simp only [List.insertionSort]
    by_cases hx : p x = true
    · rw [filter_orderedInsert_of_pos r p x hx _
        (fun y hy hpy => hl x (by simp) y
          (by simp [(List.mem_insertionSort r).mp hy]) hx hpy),
        ih fun a ha b hb hpa hpb => hl a (by simp [ha]) b (by simp [hb]) hpa hpb,
        List.filter_cons_of_pos hx]
    · rw [filter_orderedInsert_of_neg r p x (by simpa using hx),
        ih fun a ha b hb hpa hpb => hl a (by simp [ha]) b (by simp [hb]) hpa hpb,
        List.filter_cons_of_neg (by simpa using hx)]

/-- Whatever entry the dedup-and-cap loop keeps for a display name is the
first entry carrying that name in its input order. -/
lemma dedup_take_first (mr : Nat) : ∀ (l : List Scored) (seen : List Chars)
    (e : Scored), e ∈ dedup_take mr seen l →
    l.find? (fun x => decide (x.display_name = e.display_name)) = some e := by
  intro l
  induction l with
  | nil => intro seen e h; simp [dedup_take] at h
  | cons m ms ih =>
    intro seen e h
    simp only [dedup_take] at h
    by_cases h1 : m.display_name ∈ seen
    · rw [if_pos h1] at h
      have hne : m.display_name ≠ e.display_name := by
        intro hx
        exact dedup_take_not_seen mr ms seen e h (hx ▸ h1)
      rw [List.find?_cons_of_neg _ (by simpa using hne)]
      exact ih _ _ h
    · rw [if_neg h1] at h
      by_cases h2 : mr ≤ seen.length + 1
      · rw [if_pos h2] at h
        rcases List.mem_singleton.mp h with rfl
        exact List.find?_cons_of_pos _ (by simp)
      · rw [if_neg h2] at h
        rcases List.mem_cons.mp h with rfl | h
        · exact List.find?_cons_of_pos _ (by simp)
        · have hne : m.display_name ≠ e.display_name := by
            intro hx
            exact dedup_take_not_seen mr ms _ e h (hx ▸ List.mem_cons_self _ _)
          rw [List.find?_cons_of_neg _ (by simpa using hne)]
          exact ih _ _ h

/-- A first match among the scored entries corresponds to the first record
with that cleaned name in the catalog order, provided the name matches the
query (all records sharing a cleaned name pass or fail the substring test
together). -/
lemma matches_find_to_fws (ql c : Chars) (e : Scored)
    (hmatch : is_substring ql (pyLower c) = true) :
    ∀ fws : List Framework,
      (fuzzy_matches fws ql).find? (fun x => decide (x.display_name = c)) = some e →
      fws.find? (fun f => decide (clean_framework_name f.name = c)) = some e.fw := by
  intro fws
  induction fws with
  | nil => intro h; simp [fuzzy_matches] at h
  | cons f fs ih =>
    intro h
    by_cases hc : clean_framework_name f.name = c
    · have hse : score_entry ql f =
          some ⟨f, match_score ql (pyLower (clean_framework_name f.name)),
            clean_framework_name f.name⟩ := by
        simp only [score_entry]
        rw [if_pos (by rw [hc]; exact hmatch)]
      have hm : fuzzy_matches (f :: fs) ql =
          ⟨f, match_score ql (pyLower (clean_framework_name f.name)),
            clean_framework_name f.name⟩ :: fuzzy_matches fs ql := by
        simp [fuzzy_matches, List.filterMap_cons, hse]
      rw [hm, List.find?_cons_of_pos _ (by simp [hc])] at h
      obtain rfl := Option.some.inj h
      rw [List.find?_cons_of_pos _ (by simp [hc])]
    · have hskip : (fuzzy_matches (f :: fs) ql).find?
          (fun x => decide (x.display_name = c)) =
          (fuzzy_matches fs ql).find? (fun x => decide (x.display_name = c)) := by
        cases hse : score_entry ql f with
        | none => simp [fuzzy_matches, List.filterMap_cons, hse]
        | some m =>
          have hd := (score_entry_eq ql f m hse).2.1
          have : fuzzy_matches (f :: fs) ql = m :: fuzzy_matches fs ql := by
            simp [fuzzy_matches, List.filterMap_cons, hse]
          rw [this, List.find?_cons_of_neg _ (by simp [hd, hc])]
      rw [hskip] at h
      rw [List.find?_cons_of_neg _ (by simpa using hc)]
      exact ih h

/-- First-seen-wins for fuzzy search: any entry the search returns is the
record of the first occurrence of its cleaned name in the input order.
Records sharing a cleaned name receive identical scores, the sort is stable,
and the dedup loop keeps the first entry per name of the sorted order. -/
lemma fuzzy_search_first_seen (fws : List Framework) (q : Chars) (mr : Nat)
    (e : Scored) (he : e ∈ fuzzy_search_frameworks fws q mr) :
    fws.find? (fun f => decide (clean_framework_name f.name = e.display_name)) =
      some e.fw := by
  unfold fuzzy_search_frameworks at he
  split at he
  · simp at he
  · have hsortfind := dedup_take_first mr _ [] e he
    have hmem : e ∈ fuzzy_matches fws (pyStrip (pyLower q)) :=
      (List.mem_insertionSort scored_ge).mp (dedup_take_subset mr _ [] e he)
    have hstab := insertionSort_filter_stable scored_ge
      (fun x => decide (x.display_name = e.display_name))
      (fuzzy_matches fws (pyStrip (pyLower q)))
      (fun x hx y hy hpx hpy => by
        have hsx := fuzzy_matches_score fws _ x hx
        have hsy := fuzzy_matches_score fws _ y hy
        have hxy : x.search_score = y.search_score := by
          rw [hsx, hsy, decide_eq_true_eq.mp hpx, decide_eq_true_eq.mp hpy]
        unfold scored_ge
        rw [hxy]
        exact pyfloat_le_refl _)
    have hmfind : (fuzzy_matches fws (pyStrip (pyLower q))).find?
        (fun x => decide (x.display_name = e.display_name)) = some e := by
      rw [find_eq_filter_head, ← hstab, ← find_eq_filter_head]
      exact hsortfind
    exact matches_find_to_fws _ e.display_name e
      (fuzzy_matches_mem fws _ e hmem).2.2 fws hmfind

lemma add_to_group_mem (k : Char) (x e : Listed) : ∀ acc,
    e ∈ ((add_to_group k x acc).map Prod.snd).flatten →
    e = x ∨ e ∈ ((acc.map Prod.snd)).flatten := by
  intro acc
  induction acc with
  | nil =>
    intro h
    simp [add_to_group] at h
    exact Or.inl h
  | cons p rest ih =>
    obtain ⟨k', xs⟩ := p
    intro h
    by_cases hk : k' = k
    · simp only [add_to_group, if_pos hk, List.map_cons, List.flatten_cons] at h
      rcases List.mem_append.mp h with h | h
      · rcases List.mem_append.mp h with h | h
        · exact Or.inr (by simp only [List.map_cons, List.flatten_cons,
            List.mem_append]; exact Or.inl h)
        · exact Or.inl (List.mem_singleton.mp h)
      · exact Or.inr (by simp only [List.map_cons, List.flatten_cons,
          List.mem_append]; exact Or.inr h)
    · simp only [add_to_group, if_neg hk, List.map_cons, List.flatten_cons] at h
      rcases List.mem_append.mp h with h | h
      · exact Or.inr (by simp only [List.map_cons, List.flatten_cons,
          List.mem_append]; exact Or.inl h)
      · rcases ih h with h | h
        · exact Or.inl h
        · exact Or.inr (by simp only [List.map_cons, List.flatten_cons,
            List.mem_append]; exact Or.inr h)

lemma group_loop_mem (e : Listed) : ∀ (l : List Listed)
    (acc : List (Char × List Listed)),
    e ∈ ((group_loop l acc).map Prod.snd).flatten →
    e ∈ l ∨ e ∈ ((acc.map Prod.snd)).flatten := by
  intro l
  induction l with
  | nil => intro acc h; exact Or.inr h
  | cons fw fws ih =>
    intro acc h
    simp only [group_loop] at h
    cases hd : fw.display_name with
    | nil =>
      rw [hd] at h
      rcases ih _ h with h | h
      · exact Or.inl (List.mem_cons_of_mem _ h)
      · exact Or.inr h
    | cons ch tl =>
      rw [hd] at h
      rcases ih _ h with h | h
      · exact Or.inl (List.mem_cons_of_mem _ h)
      · rcases add_to_group_mem _ _ _ _ h with h | h
        · exact Or.inl (h ▸ List.mem_cons_self _ _)
        · exact Or.inr h

/-- Every entry of the alphabetical grouping comes from the shared dedup
loop, hence carries the record of the first occurrence of its cleaned name. -/
lemma group_mem_to_uniq (fws : List Framework) (e : Listed)
    (h : e ∈ ((group_frameworks_alphabetically fws).map Prod.snd).flatten) :
    e ∈ uniq_by_clean [] fws := by
  unfold group_frameworks_alphabetically at h
  rcases group_loop_mem e _ [] h with h | h
  · exact (List.mem_insertionSort listed_le).mp h
  · simp at h

/-- C2 (amended).  Two records whose raw names share a base and differ only in
the trailing whitespace-plus-digits token canonicalize identically.  Provided
the common cleaned name is non-empty, the unique-framework listing and the
alphabetical grouping each keep exactly one entry with that cleaned name, and
fuzzy search keeps at most one; in every one of the three listings the kept
entry is the record of the first occurrence of that cleaned name in input
order (for fuzzy search because records sharing a cleaned name receive
identical scores, and the stable sort plus the first-seen dedup preserve the
input order within the name class).  The original claim's "exactly one" fails
for every listing when the cleaned name is empty, and for fuzzy search when
the query does not match (see `dedup_empty_cleaned_name_cex`). -/
theorem dedup_by_cleaned_name_first_seen (l₁ l₂ l₃ : List Framework)
    (f₁ f₂ : Framework) (b w₁ w₂ d₁ d₂ : Chars)
    (hw₁ : w₁ ≠ []) (hwsp₁ : ∀ c ∈ w₁, py_isSpace c = true)
    (hd₁ : d₁ ≠ []) (hdig₁ : ∀ c ∈ d₁, c.isDigit = true)
    (hw₂ : w₂ ≠ []) (hwsp₂ : ∀ c ∈ w₂, py_isSpace c = true)
    (hd₂ : d₂ ≠ []) (hdig₂ : ∀ c ∈ d₂, c.isDigit = true)
    (hn₁ : f₁.name = b ++ w₁ ++ d₁) (hn₂ : f₂.name = b ++ w₂ ++ d₂) :
    clean_framework_name f₂.name = clean_framework_name f₁.name ∧
    (clean_framework_name f₁.name ≠ [] →
      (get_unique_frameworks (l₁ ++ f₁ :: l₂ ++ f₂ :: l₃)).countP
          (fun e => decide (e.display_name = clean_framework_name f₁.name)) = 1 ∧
      ∀ e ∈ get_unique_frameworks (l₁ ++ f₁ :: l₂ ++ f₂ :: l₃),
        e.display_name = clean_framework_name f₁.name →
        (l₁ ++ f₁ :: l₂ ++ f₂ :: l₃).find?
            (fun f => decide (clean_framework_name f.name =
              clean_framework_name f₁.name)) = some e.fw) ∧
    (∀ q mr, (fuzzy_search_frameworks (l₁ ++ f₁ :: l₂ ++ f₂ :: l₃) q mr).countP
        (fun e => decide (e.display_name = clean_framework_name f₁.name)) ≤ 1 ∧
      ∀ e ∈ fuzzy_search_frameworks (l₁ ++ f₁ :: l₂ ++ f₂ :: l₃) q mr,
        e.display_name = clean_framework_name f₁.name →
        (l₁ ++ f₁ :: l₂ ++ f₂ :: l₃).find?
            (fun f => decide (clean_framework_name f.name =
              clean_framework_name f₁.name)) = some e.fw) ∧
    (clean_framework_name f₁.name ≠ [] →
      groups_countP (group_frameworks_alphabetically (l₁ ++ f₁ :: l₂ ++ f₂ :: l₃))
        (clean_framework_name f₁.name) = 1 ∧
      ∀ e ∈ (((group_frameworks_alphabetically
          (l₁ ++ f₁ :: l₂ ++ f₂ :: l₃)).map Prod.snd)).flatten,
        e.display_name = clean_framework_name f₁.name →
        (l₁ ++ f₁ :: l₂ ++ f₂ :: l₃).find?
            (fun f => decide (clean_framework_name f.name =
              clean_framework_name f₁.name)) = some e.fw) := by
  have hclean : clean_framework_name f₂.name = clean_framework_name f₁.name := by
    rw [hn₁, hn₂, clean_name_token b w₁ d₁ hw₁ hwsp₁ hd₁ hdig₁,
      clean_name_token b w₂ d₂ hw₂ hwsp₂ hd₂ hdig₂]
  have hmem₁ : f₁ ∈ l₁ ++ f₁ :: l₂ ++ f₂ :: l₃ := by simp
  have hany : (l₁ ++ f₁ :: l₂ ++ f₂ :: l₃).any
      (fun f => decide (clean_framework_name f.name =
        clean_framework_name f₁.name)) = true :=
    List.any_eq_true.mpr ⟨f₁, hmem₁, by simp⟩
  refine ⟨hclean, fun hne => ⟨?_, ?_⟩,
    fun q mr => ⟨fuzzy_search_count_le_one _ q mr _, ?_⟩, fun hne => ⟨?_, ?_⟩⟩
  · rw [get_unique_frameworks,
      (List.perm_insertionSort listed_le _).countP_eq,
      uniq_count_one _ [] _ (by simp) hne, if_pos hany]
  · intro e he hdisp
    have hmem := (List.mem_insertionSort listed_le).mp he
    have := (uniq_mem_spec _ [] e hmem).2.2.2
    rw [hdisp] at this
    exact this
  · intro e he hdisp
    have := fuzzy_search_first_seen _ q mr e he
    rw [hdisp] at this
    exact this
  · rw [group_frameworks_alphabetically, group_loop_count _ hne]
    have h0 : groups_countP [] (clean_framework_name f₁.name) = 0 := rfl
    rw [h0, (List.perm_insertionSort listed_le _).countP_eq,
      uniq_count_one _ [] _ (by simp) hne, if_pos hany]
  · intro e he hdisp
    have := (uniq_mem_spec _ [] e (group_mem_to_uniq _ e he)).2.2.2
    rw [hdisp] at this
    exact this

theorem dedup_by_cleaned_name_first_seen_witness :
    clean_framework_name ("Framework Alpha 9").data =
        clean_framework_name ("Framework Alpha 3").data ∧
      (get_unique_frameworks
          [⟨10, ("Framework Alpha 3").data, [], [], []⟩,
           ⟨11, ("Framework Alpha 9").data, [], [], []⟩]).countP
        (fun e => decide (e.display_name =
          clean_framework_name ("Framework Alpha 3").data)) = 1 ∧
      ([⟨10, ("Framework Alpha 3").data, [], [], []⟩,
        ⟨11, ("Framework Alpha 9").data, [], [], []⟩] : List Framework).find?
          (fun f => decide (clean_framework_name f.name =
            clean_framework_name ("Framework Alpha 3").data)) =
        some ⟨10, ("Framework Alpha 3").data, [], [], []⟩ := by
  have h := dedup_by_cleaned_name_first_seen []  [] []
    ⟨10, ("Framework Alpha 3").data, [], [], []⟩
    ⟨11, ("Framework Alpha 9").data, [], [], []⟩
    ("Framework Alpha").data (" ").data (" ").data ("3").data ("9").data
    (by decide) (by decide) (by decide) (by decide)
    (by decide) (by decide) (by decide) (by decide)
    (by decide) (by decide)
  refine ⟨h.1, (h.2.1 (by decide)).1, ?_⟩
  exact (h.2.2.1 ("alpha").data 10).2
    ⟨⟨10, ("Framework Alpha 3").data, [], [], []⟩,
      match_score ("alpha").data (pyLower (("Framework Alpha").data)),
      ("Framework Alpha").data⟩
    (by decide) (by decide)

/-- C2 counterexample: the records named `" 3"` and `" 9"` differ only by the
trailing digits token and canonicalize identically — to the empty string.
The unique listing and the alphabetical grouping then keep zero entries (not
exactly one), and fuzzy search keeps zero entries for a non-matching query. -/
theorem dedup_empty_cleaned_name_cex :
    clean_framework_name ((" 3").data) = clean_framework_name ((" 9").data) ∧
      get_unique_frameworks
          [⟨1, (" 3").data, [], [], []⟩, ⟨2, (" 9").data, [], [], []⟩] = [] ∧
      group_frameworks_alphabetically
          [⟨1, (" 3").data, [], [], []⟩, ⟨2, (" 9").data, [], [], []⟩] = [] ∧
      fuzzy_search_frameworks
          [⟨1, ("Alpha 3").data, [], [], []⟩, ⟨2, ("Alpha 9").data, [], [], []⟩]
          ("zz").data 10 = [] := by
  refine ⟨by decide, by decide, by decide, by decide⟩

lemma unique_ok (fws : List Framework) :
    ∀ e ∈ get_unique_frameworks fws,
      e.display_name = clean_framework_name e.fw.name := by
  intro e he
  exact ((uniq_mem_spec _ [] e ((List.mem_insertionSort listed_le).mp he)).2.2.1).symm

lemma unique_nodup (fws : List Framework) :
    ((get_unique_frameworks fws).map (·.display_name)).Nodup := by
  have hperm := (List.perm_insertionSort listed_le (uniq_by_clean [] fws)).map
    (·.display_name)
  exact (hperm.nodup_iff).mpr (uniq_nodup_names fws [])

lemma type_stage_sublist (tf : Option Chars) (l : List Listed) :
    (type_stage tf l).Sublist l := by
  cases tf with
  | none => exact List.Sublist.refl l
  | some t => exact List.filter_sublist l

lemma domain_stage_sublist (df : Option Chars) (l : List Listed) :
    (domain_stage df l).Sublist l := by
  cases df with
  | none => exact List.Sublist.refl l
  | some d => exact List.filter_sublist l

lemma domain_stage_mono (df : Option Chars) (l₁ l₂ : List Listed)
    (h : l₁.Sublist l₂) : (domain_stage df l₁).Sublist (domain_stage df l₂) := by
  cases df with
  | none => exact h
  | some d => exact h.filter _

lemma search_stage_length_le (sq : Chars) (l : List Listed) :
    (search_stage sq l).length ≤ l.length := by
  unfold search_stage
  split
  · rw [List.length_map]
    unfold fuzzy_search_frameworks
    split
    · simp
    · calc (dedup_take 50 [] _).length
          ≤ (List.insertionSort scored_ge
              (fuzzy_matches (l.map (·.fw)) _)).length :=
            dedup_take_length_le_input 50 _ []
        _ = (fuzzy_matches (l.map (·.fw)) _).length :=
            List.length_insertionSort _ _
        _ ≤ (l.map (·.fw)).length := List.length_filterMap_le _ _
        _ = l.length := List.length_map _ _
  · exact le_refl _

lemma search_stage_mem (sq : Chars) (l : List Listed)
    (hok : ∀ x ∈ l, x.display_name = clean_framework_name x.fw.name)
    (e : Listed) (h : e ∈ search_stage sq l) : e ∈ l := by
  unfold search_stage at h
  split at h
  · rcases List.mem_map.mp h with ⟨s, hs, rfl⟩
    obtain ⟨hfw, hdisp, _⟩ := fuzzy_matches_mem _ _ _ (fuzzy_search_mem _ _ _ _ hs)
    rcases List.mem_map.mp hfw with ⟨x, hx, hxf⟩
    have hxx : x = ⟨s.fw, s.display_name⟩ := by
      have hxok := hok x hx
      cases x
      simp_all
    rw [← hxx]
    exact hx
  · exact h

/-- Selecting the entries of a pipeline stage keeps the cleaned display names
not only without duplicates but evaluated from the record itself. -/
lemma names_nodup_matches (l : List Listed) (ql : Chars)
    (hok : ∀ x ∈ l, x.display_name = clean_framework_name x.fw.name)
    (hnd : (l.map (·.display_name)).Nodup) :
    ((fuzzy_matches (l.map (·.fw)) ql).map (·.display_name)).Nodup := by
  have hsub := fuzzy_matches_names_sublist (l.map (·.fw)) ql
  rw [List.map_map] at hsub
  have heq : l.map (fun e => clean_framework_name e.fw.name) =
      l.map (·.display_name) :=
    List.map_congr_left fun e he => (hok e he).symm
  rw [show ((fun fw => clean_framework_name fw.name) ∘ (·.fw)) =
      (fun e : Listed => clean_framework_name e.fw.name) from rfl, heq] at hsub
  exact hnd.sublist hsub

lemma search_stage_length_mono (sq : Chars) (l₁ l₂ : List Listed)
    (h : l₁.Sublist l₂)
    (hok₂ : ∀ x ∈ l₂, x.display_name = clean_framework_name x.fw.name)
    (hnd₂ : (l₂.map (·.display_name)).Nodup) :
    (search_stage sq l₁).length ≤ (search_stage sq l₂).length := by
  have hok₁ : ∀ x ∈ l₁, x.display_name = clean_framework_name x.fw.name :=
    fun x hx => hok₂ x (h.subset hx)
  have hnd₁ : (l₁.map (·.display_name)).Nodup := hnd₂.sublist (h.map _)
  unfold search_stage
  by_cases hsq : (!sq.isEmpty) = true
  · simp only [if_pos hsq, List.length_map]
    unfold fuzzy_search_frameworks
    by_cases hg : (sq.isEmpty || decide (sq.length < 2)) = true
    · simp [hg]
    · simp only [hg, Bool.false_eq_true, if_false]
      have hnd₁' := names_nodup_matches l₁ (pyStrip (pyLower sq)) hok₁ hnd₁
      have hnd₂' := names_nodup_matches l₂ (pyStrip (pyLower sq)) hok₂ hnd₂
      have e₁ := dedup_take_length_min 50
        (List.insertionSort scored_ge (fuzzy_matches (l₁.map (·.fw)) (pyStrip (pyLower sq)))) []
        (((List.perm_insertionSort scored_ge _).map _).nodup_iff.mpr hnd₁')
        (by simp) (by simp)
      have e₂ := dedup_take_length_min 50
        (List.insertionSort scored_ge (fuzzy_matches (l₂.map (·.fw)) (pyStrip (pyLower sq)))) []
        (((List.perm_insertionSort scored_ge _).map _).nodup_iff.mpr hnd₂')
        (by simp) (by simp)
      rw [e₁, e₂, List.length_insertionSort, List.length_insertionSort]
      exact min_le_min (le_refl _)
        (fuzzy_matches_sublist _ _ _ (h.map _)).length_le
  · simp only [if_neg hsq]
    exact h.length_le

lemma search_stage_mem_mono (sq : Chars) (l₁ l₂ : List Listed)
    (h : l₁.Sublist l₂)
    (hok₂ : ∀ x ∈ l₂, x.display_name = clean_framework_name x.fw.name)
    (hnd₂ : (l₂.map (·.display_name)).Nodup)
    (hcap : (fuzzy_matches (l₂.map (·.fw)) (pyStrip (pyLower sq))).length ≤ 50)
    (e : Listed) (he : e ∈ search_stage sq l₁) : e ∈ search_stage sq l₂ := by
  unfold search_stage at he ⊢
  by_cases hsq : (!sq.isEmpty) = true
  · simp only [if_pos hsq] at he ⊢
    rcases List.mem_map.mp he with ⟨s, hs, rfl⟩
    unfold fuzzy_search_frameworks at hs ⊢
    by_cases hg : (sq.isEmpty || decide (sq.length < 2)) = true
    · simp [hg] at hs
    · simp only [hg, Bool.false_eq_true, if_false] at hs ⊢
      have hm₁ : s ∈ fuzzy_matches (l₁.map (·.fw)) (pyStrip (pyLower sq)) :=
        (List.mem_insertionSort scored_ge).mp (dedup_take_subset 50 _ [] s hs)
      have hfw₂ : s.fw ∈ l₂.map (·.fw) := by
        have := (fuzzy_matches_mem _ _ _ hm₁).1
        exact (List.Sublist.map (·.fw) h).subset this
      have hm₂ : s ∈ fuzzy_matches (l₂.map (·.fw)) (pyStrip (pyLower sq)) :=
        fuzzy_matches_mem_of _ _ _ _ hm₁ hfw₂
      have hnd₂' := names_nodup_matches l₂ (pyStrip (pyLower sq)) hok₂ hnd₂
      have hid := dedup_take_eq_self 50
        (List.insertionSort scored_ge (fuzzy_matches (l₂.map (·.fw)) (pyStrip (pyLower sq)))) []
        (((List.perm_insertionSort scored_ge _).map _).nodup_iff.mpr hnd₂')
        (by simp)
        (by simpa [List.length_insertionSort] using hcap)
      rw [hid]
      exact List.mem_map.mpr ⟨s, (List.mem_insertionSort scored_ge).mpr hm₂, rfl⟩
  · simp only [if_neg hsq] at he ⊢
    exact h.subset he

/-- The type filter of `render_framework_index_page` viewed as a stage. -/
def typeB (tf : Option Chars) (l : List Framework) : List Framework :=
  match tf with
  | none => l
  | some t => l.filter (fun fw => decide (fw.type = t))

/-- The domain filter of `render_framework_index_page` viewed as a stage. -/
def domainB (df : Option Chars) (l : List Framework) : List Framework :=
  match df with
  | none => l
  | some d => l.filter (fun fw => is_substring d fw.business_domains)

/-- The name-search filter of `render_framework_index_page` viewed as a stage. -/
def searchB (sq : Chars) (l : List Framework) : List Framework :=
  if !sq.isEmpty then l.filter (fun fw => is_substring (pyLower sq) (pyLower fw.name))
  else l

lemma pipeB_eq (fws : List Framework) (tf df : Option Chars) (sq : Chars) :
    render_framework_index_page_filtered fws tf df sq =
      searchB sq (domainB df (typeB tf fws)) := rfl

lemma typeB_sublist (tf : Option Chars) (l : List Framework) :
    (typeB tf l).Sublist l := by
  cases tf with
  | none => exact List.Sublist.refl l
  | some t => exact List.filter_sublist l

lemma domainB_sublist (df : Option Chars) (l : List Framework) :
    (domainB df l).Sublist l := by
  cases df with
  | none => exact List.Sublist.refl l
  | some d => exact List.filter_sublist l

lemma domainB_mono (df : Option Chars) (l₁ l₂ : List Framework)
    (h : l₁.Sublist l₂) : (domainB df l₁).Sublist (domainB df l₂) := by
  cases df with
  | none => exact h
  | some d => exact h.filter _

lemma searchB_sublist (sq : Chars) (l : List Framework) :
    (searchB sq l).Sublist l := by
  unfold searchB
  split
  · exact List.filter_sublist l
  · exact List.Sublist.refl l

lemma searchB_mono (sq : Chars) (l₁ l₂ : List Framework)
    (h : l₁.Sublist l₂) : (searchB sq l₁).Sublist (searchB sq l₂) := by
  unfold searchB
  split
  · exact h.filter _
  · exact h

/-- C9 (amended).  Adding a type, domain or name-search filter to either
library pipeline never increases the result length; in
`handlers/library_clean.py` the records of the filtered result always
appear in the unfiltered result, and the same holds in
`handlers/library.py` for the search filter itself and — provided the
unfiltered pipeline's fuzzy stage returns all of its matches, i.e. at most 50
records match the search — for added type and domain filters.  Without that
proviso the 50-result cap of the search stage can drop from the unfiltered
result a record that a stricter pipeline retains (see
`filter_membership_cap_cex`). -/
theorem filter_monotonicity (fws : List Framework) (t dm sq : Chars)
    (tf df : Option Chars) :
    ((render_library_index_filtered fws (some t) df sq).length ≤
      (render_library_index_filtered fws none df sq).length) ∧
    ((render_library_index_filtered fws tf (some dm) sq).length ≤
      (render_library_index_filtered fws tf none sq).length) ∧
    ((render_library_index_filtered fws tf df sq).length ≤
      (render_library_index_filtered fws tf df []).length) ∧
    (∀ e ∈ render_library_index_filtered fws tf df sq,
      e ∈ render_library_index_filtered fws tf df []) ∧
    ((fuzzy_matches ((domain_stage df (get_unique_frameworks fws)).map (·.fw))
        (pyStrip (pyLower sq))).length ≤ 50 →
      ∀ e ∈ render_library_index_filtered fws (some t) df sq,
        e ∈ render_library_index_filtered fws none df sq) ∧
    ((fuzzy_matches ((type_stage tf (get_unique_frameworks fws)).map (·.fw))
        (pyStrip (pyLower sq))).length ≤ 50 →
      ∀ e ∈ render_library_index_filtered fws tf (some dm) sq,
        e ∈ render_library_index_filtered fws tf none sq) ∧
    ((render_framework_index_page_filtered fws (some t) df sq).length ≤
      (render_framework_index_page_filtered fws none df sq).length) ∧
    ((render_framework_index_page_filtered fws tf (some dm) sq).length ≤
      (render_framework_index_page_filtered fws tf none sq).length) ∧
    ((render_framework_index_page_filtered fws tf df sq).length ≤
      (render_framework_index_page_filtered fws tf df []).length) ∧
    (∀ e ∈ render_framework_index_page_filtered fws (some t) df sq,
      e ∈ render_framework_index_page_filtered fws none df sq) ∧
    (∀ e ∈ render_framework_index_page_filtered fws tf (some dm) sq,
      e ∈ render_framework_index_page_filtered fws tf none sq) ∧
    (∀ e ∈ render_framework_index_page_filtered fws tf df sq,
      e ∈ render_framework_index_page_filtered fws tf df []) := by
  have hok := unique_ok fws
  have hnd := unique_nodup fws
  have hokd : ∀ x ∈ domain_stage df (get_unique_frameworks fws),
      x.display_name = clean_framework_name x.fw.name :=
    fun x hx => hok x ((domain_stage_sublist df _).subset hx)
  have hndd : ((domain_stage df (get_unique_frameworks fws)).map
      (·.display_name)).Nodup :=
    hnd.sublist ((domain_stage_sublist df _).map _)
  have hokt : ∀ x ∈ type_stage tf (get_unique_frameworks fws),
      x.display_name = clean_framework_name x.fw.name :=
    fun x hx => hok x ((type_stage_sublist tf _).subset hx)
  have hndt : ((type_stage tf (get_unique_frameworks fws)).map
      (·.display_name)).Nodup :=
    hnd.sublist ((type_stage_sublist tf _).map _)
  have hokdt : ∀ x ∈ domain_stage df (type_stage tf (get_unique_frameworks fws)),
      x.display_name = clean_framework_name x.fw.name :=
    fun x hx => hokt x ((domain_stage_sublist df _).subset hx)
  have hB1 : (render_framework_index_page_filtered fws (some t) df sq).Sublist
      (render_framework_index_page_filtered fws none df sq) := by
    rw [pipeB_eq, pipeB_eq]
    exact searchB_mono _ _ _ (domainB_mono _ _ _ (typeB_sublist (some t) fws))
  have hB2 : (render_framework_index_page_filtered fws tf (some dm) sq).Sublist
      (render_framework_index_page_filtered fws tf none sq) := by
    rw [pipeB_eq, pipeB_eq]
    exact searchB_mono _ _ _ (domainB_sublist (some dm) _)
  have hB3 : (render_framework_index_page_filtered fws tf df sq).Sublist
      (render_framework_index_page_filtered fws tf df []) := by
    rw [pipeB_eq, pipeB_eq]
    exact searchB_sublist sq _
  refine ⟨?_, ?_, ?_, ?_, ?_, ?_, hB1.length_le, hB2.length_le, hB3.length_le,
    fun e he => hB1.subset he, fun e he => hB2.subset he, fun e he => hB3.subset he⟩
  · exact search_stage_length_mono sq _ _
      (domain_stage_mono df _ _ (type_stage_sublist (some t) _)) hokd hndd
  · exact search_stage_length_mono sq _ _
      (domain_stage_sublist (some dm) _) hokt hndt
  · exact search_stage_length_le sq _
  · exact fun e he => search_stage_mem sq _ hokdt e he
  · intro hcap e he
    exact search_stage_mem_mono sq _ _
      (domain_stage_mono df _ _ (type_stage_sublist (some t) _)) hokd hndd hcap e he
  · intro hcap e he
    exact search_stage_mem_mono sq _ _
      (domain_stage_sublist (some dm) _) hokt hndt hcap e he

theorem filter_monotonicity_witness :
    (⟨fwA, ("Alpha").data⟩ : Listed) ∈
      render_library_index_filtered [fwA] none none ("al").data := by
  have h := filter_monotonicity [fwA] ("T").data ("x").data ("al").data none none
  exact h.2.2.2.2.1 (by decide) _ (by decide)

/-- One of the 51 high-scoring filler records of the cap counterexample. -/
def cex_high (i : Nat) : Framework :=
  ⟨i, ("aa").data ++ (Nat.repr i).data ++ ("x").data, ("Y").data, [], []⟩

/-- The target record of the cap counterexample: type `X`, low search score. -/
def cex_target : Framework := ⟨99, ("zzzaa").data, ("X").data, [], []⟩

/-- 52 records all matching the query `aa`, 51 of type `Y` scoring above the
one record of type `X`. -/
def cex_fws : List Framework := ((List.range 51).map cex_high) ++ [cex_target]

/-- C9 counterexample: in `handlers/library.py`, with the search query `aa`
active, adding the type filter `X` yields a result containing the target
record, but the unfiltered pipeline does not contain it: 52 records match
`aa` and the fuzzy stage keeps only the 50 best-scoring ones, which excludes
the target.  A record of the stricter result is thus absent from the looser
result, refuting the claim's unconditional membership monotonicity. -/
theorem filter_membership_cap_cex :
    (⟨cex_target, ("zzzaa").data⟩ : Listed) ∈
        render_library_index_filtered cex_fws (some (("X").data)) none ("aa").data ∧
      (⟨cex_target, ("zzzaa").data⟩ : Listed) ∉
        render_library_index_filtered cex_fws none none ("aa").data := by
  constructor
  · decide
  · decide
